import Mathlib

/-!
# Pin lists of the AVR C++ port library (`avrcpp/pinlist.h`, `avrcpp/ports.h`)

A shallow embedding of the compile-time type-list machinery and of the
read/write iterators built on top of it.

* A `Typelist<Head, Tail>` terminated by `NullType` is a Lean `List`.
* A port class is identified by its `Id` (a natural number); a pin class
  `TPin<PORT, PIN>` is the pair of its port and its bit number.
* `uint8_t` values are natural numbers reduced `% 256`; `int` and
  `unsigned int` are the 16-bit types of the AVR target, reduced `% 65536`.
* The hardware registers of all ports form an explicit state `Regs` that the
  writing operations thread through.
-/

namespace Pinlist

/-! ## Ports and pins (`ports.h`) -/

/-- Register file of the device: one data, direction and pin-state register
per port, indexed by the port `Id`.  Only the low 8 bits of an entry are the
register's content. -/
structure Regs where
  data : Nat → Nat
  dir : Nat → Nat
  pin : Nat → Nat

/-- Source `enum{Width=8}` of every class made by `MAKE_PORT`. -/
def Port.Width : Nat := 8

/-- Source `static void Write(uint8_t value) { data() = value; }` -/
def Port.Write (P : Nat) (value : Nat) (s : Regs) : Regs :=
  { s with data := Function.update s.data P (value % 256) }

/-- Source `static uint8_t Read() { return data(); }` -/
def Port.Read (P : Nat) (s : Regs) : Nat :=
  s.data P % 256

/-- Modelled from the spec: `Port::PinRead()` belongs to the port classes of
`ioports.h`, which is not part of the sources; the spec gives
`PinRead() → byte` (live electrical state), the content of the pin-state
register. -/
def Port.PinRead (P : Nat) (s : Regs) : Nat :=
  s.pin P % 256

/-- Source `template<class PORT, uint8_t PIN> class TPin`: `Port` is the `Id` of
`PORT`, `Number` is `PIN`. -/
structure TPin where
  Port : Nat
  Number : Nat
  deriving DecidableEq, Repr

/-- Source `template<class TPIN, uint8_t POSITION> struct PW` (pin wrapper). -/
structure PW where
  Pin : TPin
  Position : Nat
  deriving DecidableEq, Repr

/-! ## Type-list utilities -/

/-- Source `Length<TList>::value` -/
def Length {α : Type} : List α → Nat
  | [] => 0
  | _ :: U => 1 + Length U

/-- Source `Erase<TList, T>::Result`: erases the first occurrence of `T`. -/
def Erase {α : Type} [DecidableEq α] : List α → α → List α
  | [], _ => []
  | Head :: Tail, T => if Head = T then Tail else Head :: Erase Tail T

/-- Source `NoDuplicates<TList>::Result` -/
def NoDuplicates {α : Type} [DecidableEq α] : List α → List α
  | [] => []
  | Head :: Tail => Head :: Erase (NoDuplicates Tail) Head

/-- Source `GetPorts<TList>::Result`: the port of every wrapped pin. -/
def GetPorts : List PW → List Nat
  | [] => []
  | Head :: Tail => Head.Pin.Port :: GetPorts Tail

/-- Source `GetPinsWithPort<TList, T>::Result`: the wrapped pins whose port is `T`. -/
def GetPinsWithPort : List PW → Nat → List PW
  | [], _ => []
  | Head :: Tail, T =>
    if Head.Pin.Port = T then Head :: GetPinsWithPort Tail T
    else GetPinsWithPort Tail T

/-- Source `GetPortMask<TList>::value` -/
def GetPortMask : List PW → Nat
  | [] => 0
  | Head :: Tail => (1 <<< Head.Pin.Number) ||| GetPortMask Tail

/-- Source `GetValueMask<TList>::value` -/
def GetValueMask : List PW → Nat
  | [] => 0
  | Head :: Tail => (1 <<< Head.Position) ||| GetValueMask Tail

/-- Source `IsSerial<TList>::PinNumber`: the head's pin number, `-1` for `NullType`. -/
def IsSerial.PinNumber : List PW → Int
  | [] => -1
  | Head :: _ => (Head.Pin.Number : Int)

/-- Source `IsSerial<TList>::EndOfList` -/
def IsSerial.EndOfList : List PW → Bool
  | [] => true
  | _ :: _ => false

/-- Source `IsSerial<TList>::value` -/
def IsSerial.value : List PW → Bool
  | [] => true
  | Head :: Tail =>
    (decide ((Head.Pin.Number : Int) = IsSerial.PinNumber Tail - 1) && IsSerial.value Tail)
      || IsSerial.EndOfList Tail

/-! ## Composite value type -/

/-- The two result types of `IoPrivate::SelectSize`. -/
inductive CType where
  | unsignedChar
  | unsignedInt
  deriving DecidableEq, Repr

/-- Width in bits of the type on the AVR target. -/
def CType.bits : CType → Nat
  | .unsignedChar => 8
  | .unsignedInt => 16

/-- Conversion of a value to the unsigned type. -/
def CType.cast (t : CType) (x : Nat) : Nat :=
  x % 2 ^ t.bits

/-- Source `IoPrivate::SelectSize<Short>::Result` -/
def SelectSize : Bool → CType
  | false => .unsignedInt
  | true => .unsignedChar

/-- Bitwise complement of a 16-bit `int`. -/
def complement (x : Nat) : Nat :=
  65535 ^^^ (x % 65536)

/-! ## Per-port value transforms (`PinWriteIterator`) -/

/-- Source `PinWriteIterator<TList>::UppendValue(value)`; the result is a `uint8_t`. -/
def PinWriteIterator.UppendValue : List PW → Nat → Nat
  | [], _ => 0
  | Head :: Tail, value =>
    if IsSerial.value (Head :: Tail) then
      if Head.Position > Head.Pin.Number then
        ((value >>> (Head.Position - Head.Pin.Number)) &&& GetPortMask (Head :: Tail)) % 256
      else
        (((value <<< (Head.Pin.Number - Head.Position)) % 65536)
          &&& GetPortMask (Head :: Tail)) % 256
    else
      let result :=
        if Head.Position = Head.Pin.Number then
          (0 ||| (value &&& (1 <<< Head.Position))) % 256
        else if value &&& (1 <<< Head.Position) ≠ 0 then
          (0 ||| (1 <<< Head.Pin.Number)) % 256
        else 0
      (result ||| PinWriteIterator.UppendValue Tail value) % 256

/-- Source `PinWriteIterator<TList>::UppendReadValue(portValue, dummy)`; the result
has the type `DataType` of `dummy`. -/
def PinWriteIterator.UppendReadValue (DataType : CType) : List PW → Nat → Nat
  | [], _ => 0
  | Head :: Tail, portValue =>
    if IsSerial.value (Head :: Tail) then
      if Head.Position > Head.Pin.Number then
        DataType.cast ((portValue >>> (Head.Position - Head.Pin.Number))
          &&& GetValueMask (Head :: Tail))
      else
        DataType.cast (((portValue <<< (Head.Pin.Number - Head.Position)) % 65536)
          &&& GetValueMask (Head :: Tail))
    else
      let value :=
        if Head.Position = Head.Pin.Number then
          DataType.cast (0 ||| (portValue &&& (1 <<< Head.Position)))
        else if portValue &&& (1 <<< Head.Pin.Number) ≠ 0 then
          DataType.cast (0 ||| (1 <<< Head.Position))
        else 0
      DataType.cast (value ||| PinWriteIterator.UppendReadValue DataType Tail portValue)

/-! ## Per-grouping operations (`PortWriteIterator`, `PinSet`, `PinList`) -/

/-- Source `PortWriteIterator<PortList, PinList>::Write(value)` -/
def PortWriteIterator.Write : List Nat → List PW → Nat → Regs → Regs
  | [], _, _, s => s
  | Head :: Tail, PinList, value, s =>
    let Pins := GetPinsWithPort PinList Head
    let Mask := GetPortMask Pins
    let result := PinWriteIterator.UppendValue Pins value
    let s1 :=
      if Length Pins = Port.Width then Port.Write Head result s
      else Port.Write Head ((Port.Read Head s &&& complement Mask) ||| result) s
    PortWriteIterator.Write Tail PinList value s1

/-- Source `PortWriteIterator<PortList, PinList>::OutRead(dummy)` -/
def PortWriteIterator.OutRead (DataType : CType) : List Nat → List PW → Regs → Nat
  | [], _, _ => 0
  | Head :: Tail, PinList, s =>
    let portValue := Port.Read Head s
    let value :=
      PinWriteIterator.UppendReadValue DataType (GetPinsWithPort PinList Head) portValue
    DataType.cast (value ||| PortWriteIterator.OutRead DataType Tail PinList s)

/-- Source `PortWriteIterator<PortList, PinList>::PinRead(dummy)` -/
def PortWriteIterator.PinRead (DataType : CType) : List Nat → List PW → Regs → Nat
  | [], _, _ => 0
  | Head :: Tail, PinList, s =>
    let portValue := Port.PinRead Head s
    let value :=
      PinWriteIterator.UppendReadValue DataType (GetPinsWithPort PinList Head) portValue
    DataType.cast (value ||| PortWriteIterator.PinRead DataType Tail PinList s)

/-- Source `PinSet<PINS>::Ports` -/
def PinSet.Ports (PINS : List PW) : List Nat :=
  NoDuplicates (GetPorts PINS)

/-- Source `PinSet<PINS>::Length` -/
def PinSet.Length (PINS : List PW) : Nat :=
  Pinlist.Length PINS

/-- Source `PinSet<PINS>::DataType`, which is `SelectSize<Length < 8>::Result`. -/
def PinSet.DataType (PINS : List PW) : CType :=
  SelectSize (decide (PinSet.Length PINS < 8))

/-- Source `PinSet<PINS>::Write(DataType value)` -/
def PinSet.Write (PINS : List PW) (value : Nat) (s : Regs) : Regs :=
  PortWriteIterator.Write (PinSet.Ports PINS) PINS ((PinSet.DataType PINS).cast value) s

/-- Source `PinSet<PINS>::Read()` -/
def PinSet.Read (PINS : List PW) (s : Regs) : Nat :=
  PortWriteIterator.OutRead (PinSet.DataType PINS) (PinSet.Ports PINS) PINS s

/-- Source `PinSet<PINS>::PinRead()` -/
def PinSet.PinRead (PINS : List PW) (s : Regs) : Nat :=
  PortWriteIterator.PinRead (PinSet.DataType PINS) (PinSet.Ports PINS) PINS s

/-! ## Set, Clear and direction operations

The port classes that `pinlist.h` works on come from `ioports.h`, which is not
part of the sources; `ports.h` gives `data()`, `dir()`, `pin()`, `Write` and
`Read` only.  The remaining port operations follow the port contract of the
specification. -/

/-- Modelled from the spec: `Port::Set(byte)` of the absent `ioports.h` asserts
the given bits of the data register, `data := data | bits`. -/
def Port.Set (P : Nat) (value : Nat) (s : Regs) : Regs :=
  { s with data := Function.update s.data P ((s.data P % 256 ||| value % 256) % 256) }

/-- Modelled from the spec: `Port::Clear(byte)` of the absent `ioports.h`
deasserts the given bits of the data register, `data := data & ~bits`. -/
def Port.Clear (P : Nat) (value : Nat) (s : Regs) : Regs :=
  { s with
    data := Function.update s.data P ((s.data P % 256 &&& complement (value % 256)) % 256) }

/-- Source `Port::dir() = value`: a store through the reference returned by
`static volatile uint8_t &dir()`. -/
def Port.dirStore (P : Nat) (value : Nat) (s : Regs) : Regs :=
  { s with dir := Function.update s.dir P (value % 256) }

/-- Modelled from the spec: `Port::DirWrite(byte)` of the absent `ioports.h`
is `Write` for the direction register. -/
def Port.DirWrite (P : Nat) (value : Nat) (s : Regs) : Regs :=
  { s with dir := Function.update s.dir P (value % 256) }

/-- Modelled from the spec: `Port::DirRead()` of the absent `ioports.h` is
`Read` for the direction register. -/
def Port.DirRead (P : Nat) (s : Regs) : Nat :=
  s.dir P % 256

/-- Source `PortWriteIterator<PortList, PinList>::Set(value)` -/
def PortWriteIterator.Set : List Nat → List PW → Nat → Regs → Regs
  | [], _, _, s => s
  | Head :: Tail, PinList, value, s =>
    let result := PinWriteIterator.UppendValue (GetPinsWithPort PinList Head) value
    PortWriteIterator.Set Tail PinList value (Port.Set Head result s)

/-- Source `PortWriteIterator<PortList, PinList>::Clear(value)` -/
def PortWriteIterator.Clear : List Nat → List PW → Nat → Regs → Regs
  | [], _, _, s => s
  | Head :: Tail, PinList, value, s =>
    let result := PinWriteIterator.UppendValue (GetPinsWithPort PinList Head) value
    PortWriteIterator.Clear Tail PinList value (Port.Clear Head result s)

/-- Source `PortWriteIterator<PortList, PinList>::DirWrite(value)` -/
def PortWriteIterator.DirWrite : List Nat → List PW → Nat → Regs → Regs
  | [], _, _, s => s
  | Head :: Tail, PinList, value, s =>
    let Pins := GetPinsWithPort PinList Head
    let Mask := GetPortMask Pins
    let result := PinWriteIterator.UppendValue Pins value
    let s1 :=
      if Length Pins = Port.Width then Port.dirStore Head result s
      else Port.DirWrite Head ((Port.DirRead Head s &&& complement Mask) ||| result) s
    PortWriteIterator.DirWrite Tail PinList value s1

/-- Source `PinSet<PINS>::Set(DataType value)` -/
def PinSet.Set (PINS : List PW) (value : Nat) (s : Regs) : Regs :=
  PortWriteIterator.Set (PinSet.Ports PINS) PINS ((PinSet.DataType PINS).cast value) s

/-- Source `PinSet<PINS>::Clear(DataType value)` -/
def PinSet.Clear (PINS : List PW) (value : Nat) (s : Regs) : Regs :=
  PortWriteIterator.Clear (PinSet.Ports PINS) PINS ((PinSet.DataType PINS).cast value) s

/-- Source `PinSet<PINS>::DirWrite(DataType value)` -/
def PinSet.DirWrite (PINS : List PW) (value : Nat) (s : Regs) : Regs :=
  PortWriteIterator.DirWrite (PinSet.Ports PINS) PINS ((PinSet.DataType PINS).cast value) s

/-- One access to a data register made by `Write`: a call of `Port::Read()` or a
call of `Port::Write(value)` with the byte stored. -/
inductive Access where
  | read (P : Nat)
  | write (P : Nat) (value : Nat)
  deriving DecidableEq, Repr

/-- Source `PortWriteIterator<PortList, PinList>::Write(value)`, the calls of
`Port::Read` and `Port::Write` it makes, in order: the whole-port branch calls
`Port::Write(result)` alone, the other branch calls `Port::Read()` and then
`Port::Write((Port::Read() & ~Mask) | result)`. -/
def PortWriteIterator.WriteAccesses : List Nat → List PW → Nat → Regs → List Access
  | [], _, _, _ => []
  | Head :: Tail, PinList, value, s =>
    let Pins := GetPinsWithPort PinList Head
    let Mask := GetPortMask Pins
    let result := PinWriteIterator.UppendValue Pins value
    if Length Pins = Port.Width then
      Access.write Head (result % 256)
        :: PortWriteIterator.WriteAccesses Tail PinList value (Port.Write Head result s)
    else
      Access.read Head
        :: Access.write Head (((Port.Read Head s &&& complement Mask) ||| result) % 256)
        :: PortWriteIterator.WriteAccesses Tail PinList value
            (Port.Write Head ((Port.Read Head s &&& complement Mask) ||| result) s)

/-- The effect of one access on the register file: a read leaves it alone, a
write stores the byte. -/
def Access.apply : Access → Regs → Regs
  | .read _, s => s
  | .write P value, s => Port.Write P value s

/-- Source `PinSet<PINS>::Write(DataType value)`, the port accesses it makes. -/
def PinSet.WriteAccesses (PINS : List PW) (value : Nat) (s : Regs) : List Access :=
  PortWriteIterator.WriteAccesses (PinSet.Ports PINS) PINS ((PinSet.DataType PINS).cast value) s

/-- The register file with the data and direction registers of every port
exchanged. -/
def Regs.swapDataDir (s : Regs) : Regs :=
  ⟨s.dir, s.data, s.pin⟩

/-- The register file with the data register of every port replaced by its
pin-state register. -/
def Regs.pinAsData (s : Regs) : Regs :=
  ⟨s.pin, s.dir, s.pin⟩

/-- Source `MakePinList<Position, T1, ...>::Result` -/
def MakePinList : Nat → List TPin → List PW
  | _, [] => []
  | Position, T1 :: Ts => PW.mk T1 Position :: MakePinList (Position + 1) Ts

/-- Source `PinList<T1, ...>`: the pin set of `MakePinList<0, T1, ...>::Result`. -/
def PinList (pins : List TPin) : List PW :=
  MakePinList 0 pins

/-- A grouping is well formed when it lists 1 to 16 pairwise distinct pins,
each with a bit number below the port width. -/
def WellFormed (pins : List TPin) : Prop :=
  1 ≤ pins.length ∧ pins.length ≤ 16 ∧ pins.Nodup ∧ ∀ p ∈ pins, p.Number < Port.Width

instance (pins : List TPin) : Decidable (WellFormed pins) :=
  inferInstanceAs (Decidable
    (1 ≤ pins.length ∧ pins.length ≤ 16 ∧ pins.Nodup ∧ ∀ p ∈ pins, p.Number < Port.Width))

/-- The contiguity condition in the words of the specification: the offset
`Position - Pin::Number` is the same for all members of the partition. -/
def ConstantOffset (l : List PW) : Prop :=
  ∀ a ∈ l, ∀ b ∈ l,
    (a.Position : Int) - (a.Pin.Number : Int) = (b.Position : Int) - (b.Pin.Number : Int)

instance (l : List PW) : Decidable (ConstantOffset l) :=
  inferInstanceAs (Decidable (∀ a ∈ l, ∀ b ∈ l,
    (a.Position : Int) - (a.Pin.Number : Int) = (b.Position : Int) - (b.Pin.Number : Int)))

/-! ## Definition and operations of a single pin (`ports.h`, `class TPin`) -/

/-- Modelled from the spec: the macro `BOOST_STATIC_ASSERT` of the absent
`static_assert.h`; a build-time contract, which rejects the definition when its
condition is false and has no other effect. -/
def BOOST_STATIC_ASSERT (condition : Bool) : Option Unit :=
  if condition then some () else none

/-- Source `template<class PORT, uint8_t PIN> class TPin` with its
`BOOST_STATIC_ASSERT(PIN < PORT::Width)`: the pin class for the port `PORT` and
the bit `PIN`, when the assertion lets it be defined. -/
def TPin.define (PORT PIN : Nat) : Option TPin :=
  (BOOST_STATIC_ASSERT (decide (PIN < Port.Width))).map (fun _ => TPin.mk PORT PIN)

/-- Source `static void Set() { PORT::data() |= (1 << PIN); }` -/
def TPin.Set (p : TPin) (s : Regs) : Regs :=
  { s with data := Function.update s.data p.Port ((s.data p.Port % 256 ||| (1 <<< p.Number)) % 256) }

/-- Source `static void Clear() { PORT::data() &= (uint8_t)~(1 << PIN); }` -/
def TPin.Clear (p : TPin) (s : Regs) : Regs :=
  { s with
    data := Function.update s.data p.Port
      ((s.data p.Port % 256 &&& (complement (1 <<< p.Number) % 256)) % 256) }

/-- Source `static void Set(uint8_t val) { if(val) Set(); else Clear(); }` -/
def TPin.SetVal (p : TPin) (val : Nat) (s : Regs) : Regs :=
  if val % 256 ≠ 0 then p.Set s else p.Clear s

/-- The pin classes `TPin<PORT, PIN>` for a list of (port, bit) pairs, when the
assertion of `TPin` lets every one of them be defined. -/
def TPin.defineAll : List (Nat × Nat) → Option (List TPin)
  | [] => some []
  | x :: xs =>
    match TPin.define x.1 x.2, TPin.defineAll xs with
    | some p, some ps => some (p :: ps)
    | _, _ => none

/-- The grouping `PinList<TPin<P1, N1>, TPin<P2, N2>, ...>` for a list of
(port, bit) pairs, when the sources let it be defined: the template takes at
most the 17 type arguments `T1 ... T17`, and the pins are subject to the
assertion of `TPin`; the sources hold no other check. -/
def PinList.define (pairs : List (Nat × Nat)) : Option (List PW) :=
  if pairs.length ≤ 17 then (TPin.defineAll pairs).map PinList else none

/-! ## Ports and pins of a device (`MAKE_PORT(PORTA, DDRA, PINA, Porta, 'A')`,
`typedef TPin<Porta, 0> Pa0;` and so on) -/

/-- Port class `Porta`, with `Id` the character `A`. -/
def Porta : Nat := 65

/-- Port class `Portb`, with `Id` the character `B`. -/
def Portb : Nat := 66

/-- Pin `TPin<Porta, 0>`. -/
def Pa0 : TPin := ⟨Porta, 0⟩
/-- Pin `TPin<Porta, 1>`. -/
def Pa1 : TPin := ⟨Porta, 1⟩
/-- Pin `TPin<Porta, 2>`. -/
def Pa2 : TPin := ⟨Porta, 2⟩
/-- Pin `TPin<Porta, 3>`. -/
def Pa3 : TPin := ⟨Porta, 3⟩
/-- Pin `TPin<Porta, 4>`. -/
def Pa4 : TPin := ⟨Porta, 4⟩
/-- Pin `TPin<Porta, 5>`. -/
def Pa5 : TPin := ⟨Porta, 5⟩
/-- Pin `TPin<Porta, 6>`. -/
def Pa6 : TPin := ⟨Porta, 6⟩
/-- Pin `TPin<Porta, 7>`. -/
def Pa7 : TPin := ⟨Porta, 7⟩
/-- Pin `TPin<Portb, 0>`. -/
def Pb0 : TPin := ⟨Portb, 0⟩

/-- Pin `TPin<Portb, 1>`. -/
def Pb1 : TPin := ⟨Portb, 1⟩

/-- A register file used in examples: every data register holds `0xC3`,
every direction register `0x0F` and every pin-state register `0x5A`. -/
def sampleRegs : Regs := ⟨fun _ => 195, fun _ => 15, fun _ => 90⟩

end Pinlist

/-! ## The per-bit write transform of `ports.h` -/

namespace Ports

open Pinlist (PW Regs)

/-- Source `PinWriteIterator<TList>::UppendValue(value, result)` of `ports.h`; the
returned number is the final content of the `uint8_t &result`. -/
def PinWriteIterator.UppendValue : List PW → Nat → Nat → Nat
  | [], _, result => result
  | Head :: Tail, value, result =>
    let result1 :=
      if Head.Position = Head.Pin.Number then
        (result ||| (value &&& (1 <<< Head.Position))) % 256
      else if value &&& (1 <<< Head.Position) ≠ 0 then
        (result ||| (1 <<< Head.Pin.Number)) % 256
      else result
    PinWriteIterator.UppendValue Tail value result1

/-! The type-list utilities of `ports.h` (`Length`, `Erase`, `NoDuplicates`,
`GetPorts`, `GetPinsWithPort`, `MakePinList`) have the text of those of
`pinlist.h`, so their embedding is shared. -/

/-- Source `GetMask<TList>::value` of `ports.h`. -/
def GetMask : List PW → Nat
  | [] => 0
  | Head :: Tail => (1 <<< Head.Pin.Number) ||| GetMask Tail

/-- Source `PortWriteIterator<PortList, PinList>::Write(value)` of `ports.h`:
for a partition of length 1 the step `Pins::Head::Pin::Set(value &
Pins::Head::Position)`, then the merge
`Head::data() = (Head::data() & ~Mask) | result`. -/
def PortWriteIterator.Write : List Nat → List PW → Nat → Regs → Regs
  | [], _, _, s => s
  | Head :: Tail, PinList, value, s =>
    let Pins := Pinlist.GetPinsWithPort PinList Head
    let Mask := GetMask Pins
    let s1 :=
      if Pinlist.Length Pins = 1 then
        match Pins with
        | [] => s
        | PinsHead :: _ => PinsHead.Pin.SetVal (value &&& PinsHead.Position) s
      else s
    let result := PinWriteIterator.UppendValue Pins value 0
    let s2 : Regs :=
      { s1 with
        data := Function.update s1.data Head
          (((s1.data Head % 256 &&& Pinlist.complement Mask) ||| result) % 256) }
    PortWriteIterator.Write Tail PinList value s2

/-- The write of `ports.h` without the single-pin step: for every port the
merge `Head::data() = (Head::data() & ~Mask) | result` alone. -/
def PortWriteIterator.WriteMergeOnly : List Nat → List PW → Nat → Regs → Regs
  | [], _, _, s => s
  | Head :: Tail, PinList, value, s =>
    let Pins := Pinlist.GetPinsWithPort PinList Head
    let Mask := GetMask Pins
    let result := PinWriteIterator.UppendValue Pins value 0
    let s2 : Regs :=
      { s with
        data := Function.update s.data Head
          (((s.data Head % 256 &&& Pinlist.complement Mask) ||| result) % 256) }
    PortWriteIterator.WriteMergeOnly Tail PinList value s2

/-- Source `PinSet<PINS>::Write(DATA_T value)` of `ports.h`; `DATA_T` is the
unsigned type of the argument. -/
def PinSet.Write (DATA_T : Pinlist.CType) (PINS : List PW) (value : Nat)
    (s : Pinlist.Regs) : Pinlist.Regs :=
  PortWriteIterator.Write (Pinlist.NoDuplicates (Pinlist.GetPorts PINS)) PINS
    (DATA_T.cast value) s

/-- The write of `ports.h` without the single-pin step, on a whole grouping. -/
def PinSet.WriteMergeOnly (DATA_T : Pinlist.CType) (PINS : List PW) (value : Nat)
    (s : Pinlist.Regs) : Pinlist.Regs :=
  PortWriteIterator.WriteMergeOnly (Pinlist.NoDuplicates (Pinlist.GetPorts PINS)) PINS
    (DATA_T.cast value) s

end Ports

/-! ## Facts about the type-list utilities -/

namespace Pinlist

theorem Length_eq_length {α : Type} (l : List α) : Length l = l.length := by
  induction l with
  | nil => rfl
  | cons a t ih => simp [Length, ih, Nat.add_comm]

theorem Erase_eq_erase {α : Type} [DecidableEq α] (l : List α) (T : α) :
    Erase l T = l.erase T := by
  induction l with
  | nil => rfl
  | cons a t ih =>
    by_cases h : a = T
    · simp [Erase, h]
    · simp [Erase, h, ih, List.erase_cons_tail]

theorem GetPorts_eq_map (l : List PW) : GetPorts l = l.map (fun pw => pw.Pin.Port) := by
  induction l with
  | nil => rfl
  | cons a t ih => simp [GetPorts, ih]

theorem GetPinsWithPort_eq_filter (l : List PW) (T : Nat) :
    GetPinsWithPort l T = l.filter (fun pw => decide (pw.Pin.Port = T)) := by
  induction l with
  | nil => rfl
  | cons a t ih =>
    by_cases h : a.Pin.Port = T
    · simp [GetPinsWithPort, h, ih]
    · simp [GetPinsWithPort, h, ih]

theorem mem_GetPinsWithPort {l : List PW} {T : Nat} {pw : PW} :
    pw ∈ GetPinsWithPort l T ↔ pw ∈ l ∧ pw.Pin.Port = T := by
  simp [GetPinsWithPort_eq_filter]

theorem NoDuplicates_nodup {α : Type} [DecidableEq α] (l : List α) :
    (NoDuplicates l).Nodup := by
  induction l with
  | nil => simp [NoDuplicates]
  | cons a t ih =>
    simp only [NoDuplicates, Erase_eq_erase, List.nodup_cons]
    exact ⟨fun h => ((List.Nodup.mem_erase_iff ih).1 h).1 rfl, ih.erase a⟩

theorem mem_NoDuplicates {α : Type} [DecidableEq α] {l : List α} {x : α} :
    x ∈ NoDuplicates l ↔ x ∈ l := by
  induction l with
  | nil => simp [NoDuplicates]
  | cons a t ih =>
    simp only [NoDuplicates, Erase_eq_erase, List.mem_cons]
    by_cases h : x = a
    · simp [h]
    · simp [h, List.mem_erase_of_ne h, ih]

theorem NoDuplicates_firstSeen {α : Type} [DecidableEq α] (l : List α) :
    (NoDuplicates l).Pairwise (fun x y => l.indexOf x < l.indexOf y) := by
  induction l with
  | nil => simp [NoDuplicates]
  | cons a t ih =>
    simp only [NoDuplicates, Erase_eq_erase, List.pairwise_cons]
    have hne : ∀ y ∈ (NoDuplicates t).erase a, y ≠ a := fun y hy =>
      ((List.Nodup.mem_erase_iff (NoDuplicates_nodup t)).1 hy).1
    constructor
    · intro y hy
      rw [List.indexOf_cons_self, List.indexOf_cons_ne _ (Ne.symm (hne y hy))]
      exact Nat.succ_pos _
    · refine List.Pairwise.imp_of_mem ?_ (ih.sublist (List.erase_sublist a _))
      intro x y hx hy hxy
      rw [List.indexOf_cons_ne _ (Ne.symm (hne x hx)),
        List.indexOf_cons_ne _ (Ne.symm (hne y hy))]
      exact Nat.succ_lt_succ hxy

theorem count_GetPinsWithPort (l : List PW) (T : Nat) (pw : PW) :
    (GetPinsWithPort l T).count pw = if pw.Pin.Port = T then l.count pw else 0 := by
  rw [GetPinsWithPort_eq_filter]
  by_cases h : pw.Pin.Port = T
  · rw [if_pos h]
    exact List.count_filter (by simpa using h)
  · rw [if_neg h]
    exact List.count_eq_zero.2 (fun hm => h (by simpa using (List.mem_filter.1 hm).2))

theorem sum_indicator_of_nodup (ports : List Nat) (hnd : ports.Nodup) (Q : Nat) (c : Nat) :
    (ports.map (fun P => if Q = P then c else 0)).sum = if Q ∈ ports then c else 0 := by
  induction ports with
  | nil => simp
  | cons a t ih =>
    have ht := ih (List.nodup_cons.1 hnd).2
    have ha := (List.nodup_cons.1 hnd).1
    simp only [List.map_cons, List.sum_cons, ht, List.mem_cons]
    by_cases h : Q = a
    · subst h; simp [ha]
    · simp [h]

theorem partitions_perm (PINS : List PW) :
    ((PinSet.Ports PINS).flatMap (GetPinsWithPort PINS)).Perm PINS := by
  rw [List.perm_iff_count]
  intro pw
  rw [List.count_flatMap]
  have hfun : (List.count pw ∘ GetPinsWithPort PINS)
      = fun P => if pw.Pin.Port = P then PINS.count pw else 0 := by
    funext P
    simp [Function.comp, count_GetPinsWithPort]
  rw [hfun, sum_indicator_of_nodup (PinSet.Ports PINS) (NoDuplicates_nodup _)]
  by_cases hm : pw ∈ PINS
  · have : pw.Pin.Port ∈ PinSet.Ports PINS := by
      unfold PinSet.Ports
      rw [mem_NoDuplicates, GetPorts_eq_map]
      exact List.mem_map.2 ⟨pw, hm, rfl⟩
    rw [if_pos this]
  · rw [List.count_eq_zero.2 hm]; simp

end Pinlist

/-! ## Facts about masks and the per-port transforms -/

namespace Pinlist

theorem testBit_mod_256 (x b : Nat) :
    (x % 256).testBit b = (decide (b < 8) && x.testBit b) :=
  Nat.testBit_mod_two_pow x 8 b

theorem testBit_mod_65536 (x b : Nat) :
    (x % 65536).testBit b = (decide (b < 16) && x.testBit b) :=
  Nat.testBit_mod_two_pow x 16 b

theorem testBit_cast (t : CType) (x b : Nat) :
    (t.cast x).testBit b = (decide (b < t.bits) && x.testBit b) :=
  Nat.testBit_mod_two_pow x t.bits b

theorem testBit_one_shiftLeft (n b : Nat) : (1 <<< n).testBit b = decide (n = b) := by
  rw [Nat.one_shiftLeft, Nat.testBit_two_pow]

theorem testBit_complement (x b : Nat) :
    (complement x).testBit b = (decide (b < 16) && !x.testBit b) := by
  unfold complement
  rw [Nat.testBit_xor, testBit_mod_65536]
  have h : (65535 : Nat).testBit b = decide (b < 16) := Nat.testBit_two_pow_sub_one 16 b
  rw [h]
  by_cases hb : b < 16 <;> simp [hb]

theorem testBit_GetPortMask (l : List PW) (b : Nat) :
    (GetPortMask l).testBit b = true ↔ ∃ pw ∈ l, pw.Pin.Number = b := by
  induction l with
  | nil => simp [GetPortMask]
  | cons a t ih =>
    simp only [GetPortMask, Nat.testBit_or, Bool.or_eq_true, testBit_one_shiftLeft,
      decide_eq_true_eq, ih, List.mem_cons, exists_eq_or_imp]

theorem testBit_GetValueMask (l : List PW) (b : Nat) :
    (GetValueMask l).testBit b = true ↔ ∃ pw ∈ l, pw.Position = b := by
  induction l with
  | nil => simp [GetValueMask]
  | cons a t ih =>
    simp only [GetValueMask, Nat.testBit_or, Bool.or_eq_true, testBit_one_shiftLeft,
      decide_eq_true_eq, ih, List.mem_cons, exists_eq_or_imp]

theorem GetPortMask_mono_tail (a : PW) (t : List PW) (b : Nat)
    (h : (GetPortMask t).testBit b = true) : (GetPortMask (a :: t)).testBit b = true := by
  simp [GetPortMask, h]

theorem GetValueMask_mono_tail (a : PW) (t : List PW) (b : Nat)
    (h : (GetValueMask t).testBit b = true) : (GetValueMask (a :: t)).testBit b = true := by
  simp [GetValueMask, h]

/-- Every bit of the value computed for a port lies inside the port mask. -/
theorem UppendValue_le_mask (l : List PW) (value b : Nat)
    (h : (PinWriteIterator.UppendValue l value).testBit b = true) :
    (GetPortMask l).testBit b = true := by
  induction l with
  | nil => simp [PinWriteIterator.UppendValue] at h
  | cons a t ih =>
    unfold PinWriteIterator.UppendValue at h
    split at h
    · split at h
      · simp only [testBit_mod_256, Nat.testBit_and, Bool.and_eq_true] at h
        exact h.2.2
      · simp only [testBit_mod_256, Nat.testBit_and, Bool.and_eq_true] at h
        exact h.2.2
    · simp only [testBit_mod_256, Nat.testBit_or, Bool.and_eq_true, Bool.or_eq_true] at h
      rcases h.2 with h1 | h1
      · have hb : a.Pin.Number = b := by
          split at h1
          · rename_i hpos
            simp only [testBit_mod_256, Nat.testBit_or, Nat.testBit_and, Nat.zero_testBit,
              Bool.false_or, testBit_one_shiftLeft, Bool.and_eq_true, decide_eq_true_eq] at h1
            omega
          · split at h1
            · simp only [testBit_mod_256, Nat.testBit_or, Nat.zero_testBit,
                Bool.false_or, testBit_one_shiftLeft, Bool.and_eq_true, decide_eq_true_eq] at h1
              exact h1.2
            · simp at h1
        simp [GetPortMask, testBit_one_shiftLeft, hb]
      · exact GetPortMask_mono_tail a t b (ih h1)

/-- Every bit of the value read back from a port lies inside the value mask. -/
theorem UppendReadValue_le_mask (DataType : CType) (l : List PW) (portValue b : Nat)
    (h : (PinWriteIterator.UppendReadValue DataType l portValue).testBit b = true) :
    (GetValueMask l).testBit b = true := by
  induction l with
  | nil => simp [PinWriteIterator.UppendReadValue] at h
  | cons a t ih =>
    unfold PinWriteIterator.UppendReadValue at h
    split at h
    · split at h
      · simp only [testBit_cast, Nat.testBit_and, Bool.and_eq_true] at h
        exact h.2.2
      · simp only [testBit_cast, Nat.testBit_and, Bool.and_eq_true] at h
        exact h.2.2
    · simp only [testBit_cast, Nat.testBit_or, Bool.and_eq_true, Bool.or_eq_true] at h
      rcases h.2 with h1 | h1
      · have hb : a.Position = b := by
          split at h1
          · simp only [testBit_cast, Nat.testBit_or, Nat.testBit_and, Nat.zero_testBit,
              Bool.false_or, testBit_one_shiftLeft, Bool.and_eq_true, decide_eq_true_eq] at h1
            exact h1.2.2
          · split at h1
            · simp only [testBit_cast, Nat.testBit_or, Nat.zero_testBit,
                Bool.false_or, testBit_one_shiftLeft, Bool.and_eq_true, decide_eq_true_eq] at h1
              exact h1.2
            · simp at h1
        simp [GetValueMask, testBit_one_shiftLeft, hb]
      · exact GetValueMask_mono_tail a t b (ih h1)

end Pinlist

/-! ## Facts about `MakePinList` and well-formed groupings -/

namespace Pinlist

theorem MakePinList_map_Pin (k : Nat) (pins : List TPin) :
    (MakePinList k pins).map (fun pw => pw.Pin) = pins := by
  induction pins generalizing k with
  | nil => rfl
  | cons a t ih => simp [MakePinList, ih]

theorem MakePinList_length (k : Nat) (pins : List TPin) :
    (MakePinList k pins).length = pins.length := by
  induction pins generalizing k with
  | nil => rfl
  | cons a t ih => simp [MakePinList, ih]

theorem MakePinList_Position_lt (k : Nat) (pins : List TPin) (pw : PW)
    (h : pw ∈ MakePinList k pins) : k ≤ pw.Position ∧ pw.Position < k + pins.length := by
  induction pins generalizing k with
  | nil => simp [MakePinList] at h
  | cons a t ih =>
    simp only [MakePinList, List.mem_cons] at h
    rcases h with h | h
    · subst h; simp
    · have := ih (k + 1) h
      simp only [List.length_cons]
      omega

theorem mem_PinList_Pin {pins : List TPin} {pw : PW} (h : pw ∈ PinList pins) :
    pw.Pin ∈ pins := by
  have : pw.Pin ∈ (MakePinList 0 pins).map (fun pw => pw.Pin) := List.mem_map.2 ⟨pw, h, rfl⟩
  rwa [MakePinList_map_Pin] at this

/-- The pins of one port of a grouping of distinct pins have distinct bit
numbers. -/
theorem partition_Number_nodup (PINS : List PW) (T : Nat)
    (hnd : (PINS.map (fun pw => pw.Pin)).Nodup) :
    ((GetPinsWithPort PINS T).map (fun pw => pw.Pin.Number)).Nodup := by
  have hsub : ((GetPinsWithPort PINS T).map (fun pw => pw.Pin)).Nodup := by
    rw [GetPinsWithPort_eq_filter]
    exact hnd.sublist ((List.filter_sublist PINS).map _)
  have hmap : (GetPinsWithPort PINS T).map (fun pw => pw.Pin.Number)
      = ((GetPinsWithPort PINS T).map (fun pw => pw.Pin)).map (fun p => p.Number) := by
    simp [List.map_map, Function.comp]
  rw [hmap]
  refine List.Nodup.map_on ?_ hsub
  intro x hx y hy hxy
  obtain ⟨pwx, hpx, rfl⟩ := List.mem_map.1 hx
  obtain ⟨pwy, hpy, rfl⟩ := List.mem_map.1 hy
  have h1 := (mem_GetPinsWithPort.1 hpx).2
  have h2 := (mem_GetPinsWithPort.1 hpy).2
  cases hp : pwx.Pin with
  | mk p1 n1 =>
    cases hq : pwy.Pin with
    | mk p2 n2 =>
      rw [hp] at h1 hxy
      rw [hq] at h2 hxy
      simp only at h1 h2 hxy
      rw [h1, h2, hxy]

/-- The bits of the port mask are the bit numbers of the listed pins. -/
theorem GetPortMask_bits (l : List PW) (hlt : ∀ pw ∈ l, pw.Pin.Number < Port.Width) :
    (Finset.range Port.Width).filter (fun b => (GetPortMask l).testBit b = true)
      = (l.map (fun pw => pw.Pin.Number)).toFinset := by
  ext b
  simp only [Finset.mem_filter, Finset.mem_range, testBit_GetPortMask, List.mem_toFinset,
    List.mem_map]
  constructor
  · rintro ⟨_, pw, hpw, rfl⟩
    exact ⟨pw, hpw, rfl⟩
  · rintro ⟨pw, hpw, rfl⟩
    exact ⟨hlt pw hpw, pw, hpw, rfl⟩

/-- A port whose `Width` distinct bits are all listed has the full mask. -/
theorem GetPortMask_full (l : List PW) (hlt : ∀ pw ∈ l, pw.Pin.Number < Port.Width)
    (hnd : (l.map (fun pw => pw.Pin.Number)).Nodup) (hlen : Length l = Port.Width)
    (b : Nat) (hb : b < Port.Width) : (GetPortMask l).testBit b = true := by
  have hcard : ((l.map (fun pw => pw.Pin.Number)).toFinset).card = Port.Width := by
    rw [List.toFinset_card_of_nodup hnd, List.length_map, ← Length_eq_length, hlen]
  have hsub : (l.map (fun pw => pw.Pin.Number)).toFinset ⊆ Finset.range Port.Width := by
    intro x hx
    obtain ⟨pw, hpw, rfl⟩ := List.mem_map.1 (List.mem_toFinset.1 hx)
    exact Finset.mem_range.2 (hlt pw hpw)
  have heq := Finset.eq_of_subset_of_card_le hsub (by rw [hcard, Finset.card_range])
  have hmem : b ∈ (l.map (fun pw => pw.Pin.Number)).toFinset := by
    rw [heq]; exact Finset.mem_range.2 hb
  obtain ⟨pw, hpw, rfl⟩ := List.mem_map.1 (List.mem_toFinset.1 hmem)
  exact (testBit_GetPortMask l _).2 ⟨pw, hpw, rfl⟩

theorem WellFormed.partition_lt {pins : List TPin} (hw : WellFormed pins) (T : Nat) :
    ∀ pw ∈ GetPinsWithPort (PinList pins) T, pw.Pin.Number < Port.Width := fun pw hpw =>
  hw.2.2.2 pw.Pin (mem_PinList_Pin (mem_GetPinsWithPort.1 hpw).1)

theorem WellFormed.partition_nodup {pins : List TPin} (hw : WellFormed pins) (T : Nat) :
    ((GetPinsWithPort (PinList pins) T).map (fun pw => pw.Pin.Number)).Nodup :=
  partition_Number_nodup _ T (by unfold PinList; rw [MakePinList_map_Pin]; exact hw.2.2.1)

/-! ## Facts about `PortWriteIterator` -/

/-- One step of `Write` leaves the data bits outside the port mask alone,
provided a partition as long as the port is wide has the full mask. -/
theorem PortWriteIterator_Write_outside (ports : List Nat) (PINS : List PW) (value : Nat)
    (s : Regs) (P b : Nat) (hb : b < Port.Width)
    (hfull : Length (GetPinsWithPort PINS P) = Port.Width →
      (GetPortMask (GetPinsWithPort PINS P)).testBit b = true)
    (hout : (GetPortMask (GetPinsWithPort PINS P)).testBit b = false) :
    ((PortWriteIterator.Write ports PINS value s).data P).testBit b = (s.data P).testBit b := by
  induction ports generalizing s with
  | nil => rfl
  | cons Head Tail ih =>
    simp only [PortWriteIterator.Write]
    rw [ih]
    by_cases hP : Head = P
    · subst hP
      have hres : (PinWriteIterator.UppendValue (GetPinsWithPort PINS Head) value).testBit b
          = false := by
        cases hr : (PinWriteIterator.UppendValue (GetPinsWithPort PINS Head) value).testBit b
        · rfl
        · rw [UppendValue_le_mask _ _ _ hr] at hout; cases hout
      have hb8 : b < 8 := hb
      split
      · rename_i hlen
        rw [hfull hlen] at hout; cases hout
      · simp [Port.Write, Port.Read, testBit_mod_256, testBit_complement, hres, hout, hb8]
        omega
    · split <;> simp [Port.Write, Function.update_noteq (Ne.symm hP)]

end Pinlist

/-! ## Facts about the contiguity flag and the read iterators -/

namespace Pinlist

theorem ConstantOffset_cons_cons (a b : PW) (t : List PW) :
    ConstantOffset (a :: b :: t) ↔
      ((a.Position : Int) - (a.Pin.Number : Int) = (b.Position : Int) - (b.Pin.Number : Int)
        ∧ ConstantOffset (b :: t)) := by
  constructor
  · intro h
    refine ⟨h a (by simp) b (by simp), ?_⟩
    intro x hx y hy
    exact h x (List.mem_cons_of_mem _ hx) y (List.mem_cons_of_mem _ hy)
  · rintro ⟨hab, ht⟩
    have hall : ∀ x ∈ a :: b :: t,
        (x.Position : Int) - (x.Pin.Number : Int) = (b.Position : Int) - (b.Pin.Number : Int) := by
      intro x hx
      rcases List.mem_cons.1 hx with rfl | hx
      · exact hab
      · exact ht x hx b (by simp)
    intro x hx y hy
    rw [hall x hx, hall y hy]

theorem IsSerial_value_cons_cons (a b : PW) (t : List PW) :
    IsSerial.value (a :: b :: t) = true ↔
      ((a.Pin.Number : Int) = (b.Pin.Number : Int) - 1 ∧ IsSerial.value (b :: t) = true) := by
  simp [IsSerial.value, IsSerial.PinNumber, IsSerial.EndOfList]

theorem OutRead_bits (DataType : CType) (ports : List Nat) (PINS : List PW) (s : Regs)
    (b : Nat) (h : (PortWriteIterator.OutRead DataType ports PINS s).testBit b = true) :
    ∃ pw ∈ PINS, pw.Position = b := by
  induction ports with
  | nil => simp [PortWriteIterator.OutRead] at h
  | cons Head Tail ih =>
    simp only [PortWriteIterator.OutRead, testBit_cast, Nat.testBit_or, Bool.and_eq_true,
      Bool.or_eq_true] at h
    rcases h.2 with h1 | h1
    · obtain ⟨pw, hpw, hpos⟩ := (testBit_GetValueMask _ b).1 (UppendReadValue_le_mask _ _ _ _ h1)
      exact ⟨pw, (mem_GetPinsWithPort.1 hpw).1, hpos⟩
    · exact ih h1

theorem PinRead_bits (DataType : CType) (ports : List Nat) (PINS : List PW) (s : Regs)
    (b : Nat) (h : (PortWriteIterator.PinRead DataType ports PINS s).testBit b = true) :
    ∃ pw ∈ PINS, pw.Position = b := by
  induction ports with
  | nil => simp [PortWriteIterator.PinRead] at h
  | cons Head Tail ih =>
    simp only [PortWriteIterator.PinRead, testBit_cast, Nat.testBit_or, Bool.and_eq_true,
      Bool.or_eq_true] at h
    rcases h.2 with h1 | h1
    · obtain ⟨pw, hpw, hpos⟩ := (testBit_GetValueMask _ b).1 (UppendReadValue_le_mask _ _ _ _ h1)
      exact ⟨pw, (mem_GetPinsWithPort.1 hpw).1, hpos⟩
    · exact ih h1

/-! ## The claims -/

/-- C1 (round trip), evaluated on the code.  For the well-formed one-pin
grouping `PinList<Pa1>` (pin `Pa1` at position 0) the value 1 has only bit 0
set, yet `Read()` after `Write(1)` returns 0 from every initial register state:
`UppendReadValue` shifts the port value left by `Number - Position` where the
inverse of the write transform needs a right shift. -/
theorem Read_after_Write_Pa1 :
    WellFormed [Pa1] ∧
      ∀ s : Regs, PinSet.Read (PinList [Pa1]) (PinSet.Write (PinList [Pa1]) 1 s) = 0 := by
  refine ⟨by decide, fun s => ?_⟩
  have h : ∀ r : Regs, PinSet.Read (PinList [Pa1]) r
      = CType.unsignedChar.cast (CType.unsignedChar.cast
          (((Port.Read 65 r <<< 1) % 65536) &&& 1) ||| 0) := fun _ => rfl
  rw [h]
  apply Nat.eq_of_testBit_eq
  intro i
  have h1 : (1 : Nat).testBit i = decide (0 = i) := by
    simpa using testBit_one_shiftLeft 0 i
  simp only [testBit_cast, Nat.testBit_or, Nat.testBit_and, testBit_mod_65536,
    Nat.testBit_shiftLeft, Nat.zero_testBit, h1]
  cases i <;> simp

/-- C2 (merge preservation).  For every well-formed grouping, every value and
every prior register state, after `Write(value)` each data-register bit `b`
(below the port width) of each port `P` that is not in the partition mask
`GetPortMask<GetPinsWithPort<PINS, P>>` has the value it had before. -/
theorem Write_merge_preservation (pins : List TPin) (hw : WellFormed pins) (value : Nat)
    (s : Regs) (P b : Nat) (hb : b < Port.Width)
    (hout : (GetPortMask (GetPinsWithPort (PinList pins) P)).testBit b = false) :
    ((PinSet.Write (PinList pins) value s).data P).testBit b = (s.data P).testBit b :=
  PortWriteIterator_Write_outside _ _ _ s P b hb
    (fun hlen => GetPortMask_full _ (hw.partition_lt P) (hw.partition_nodup P) hlen b hb) hout

/-- Witness of C2 at the grouping `PinList<Pa5, Pa3, Pb0>`, value `0b101`,
port `Porta`, bit 0. -/
theorem Write_merge_preservation_witness :
    WellFormed [Pa5, Pa3, Pb0] ∧ 0 < Port.Width ∧
      (GetPortMask (GetPinsWithPort (PinList [Pa5, Pa3, Pb0]) Porta)).testBit 0 = false ∧
      ((PinSet.Write (PinList [Pa5, Pa3, Pb0]) 5 sampleRegs).data Porta).testBit 0
        = (sampleRegs.data Porta).testBit 0 :=
  ⟨by decide, by decide, by decide,
    Write_merge_preservation [Pa5, Pa3, Pb0] (by decide) 5 sampleRegs Porta 0
      (by decide) (by decide)⟩

/-- C3 (read correctness), evaluated on the code.  For the well-formed
grouping `PinList<Pa1, Pa2>` bit 1 of `Read()` is data bit 0 of `Porta`, which
is no pin of the grouping, and not data bit 2, the bit of `Pa2` at position 1. -/
theorem Read_Pa1_Pa2_bit_one :
    WellFormed [Pa1, Pa2] ∧
      ∀ s : Regs, (PinSet.Read (PinList [Pa1, Pa2]) s).testBit 1 = (s.data Porta).testBit 0 := by
  refine ⟨by decide, fun s => ?_⟩
  have h : PinSet.Read (PinList [Pa1, Pa2]) s
      = CType.unsignedChar.cast (CType.unsignedChar.cast
          (((Port.Read Porta s <<< 1) % 65536) &&& 3) ||| 0) := rfl
  have h3 : (3 : Nat).testBit 1 = true := by decide
  rw [h]
  simp only [testBit_cast, Nat.testBit_or, Nat.testBit_and, testBit_mod_65536,
    Nat.testBit_shiftLeft, Nat.zero_testBit, h3, Port.Read, testBit_mod_256, CType.bits]
  simp

/-- C4 (contiguity correctness on the write path), evaluated on the code.  In
the well-formed grouping `PinList<Pa0, Pb0, Pa1>` the partition of `Porta` is
`Pa0` at position 0 and `Pa1` at position 2; `IsSerial` flags it, the
shift-and-mask `UppendValue` maps the value `0b100` to 0, and the per-bit
transform of `ports.h` maps it to `0b10`. -/
theorem UppendValue_serial_differs_from_per_bit :
    WellFormed [Pa0, Pb0, Pa1] ∧
      GetPinsWithPort (PinList [Pa0, Pb0, Pa1]) Porta = [⟨Pa0, 0⟩, ⟨Pa1, 2⟩] ∧
      IsSerial.value (GetPinsWithPort (PinList [Pa0, Pb0, Pa1]) Porta) = true ∧
      PinWriteIterator.UppendValue (GetPinsWithPort (PinList [Pa0, Pb0, Pa1]) Porta) 4 = 0 ∧
      Ports.PinWriteIterator.UppendValue (GetPinsWithPort (PinList [Pa0, Pb0, Pa1]) Porta) 4 0
        = 2 := by
  decide

/-- C5 as stated fails in both directions.  In `PinList<Pa0, Pb0, Pa1>` the
partition of `Porta` is flagged by `IsSerial` although its offsets are 0 and 1;
in `PinList<Pa0, Pb0, Pa2>` the partition of `Porta` has the constant offset 0
and is not flagged. -/
theorem IsSerial_not_iff_ConstantOffset :
    (WellFormed [Pa0, Pb0, Pa1] ∧
      ¬ (IsSerial.value (GetPinsWithPort (PinList [Pa0, Pb0, Pa1]) Porta) = true ↔
        ConstantOffset (GetPinsWithPort (PinList [Pa0, Pb0, Pa1]) Porta))) ∧
    (WellFormed [Pa0, Pb0, Pa2] ∧
      ¬ (IsSerial.value (GetPinsWithPort (PinList [Pa0, Pb0, Pa2]) Porta) = true ↔
        ConstantOffset (GetPinsWithPort (PinList [Pa0, Pb0, Pa2]) Porta))) := by
  decide

/-- C5 amended.  For every list of positioned pins whose logical positions are
consecutive (each member's `Position` is one more than its predecessor's),
`IsSerial<list>::value` is true if and only if `Position - Pin::Number` is the
same for all members. -/
theorem IsSerial_iff_ConstantOffset_of_adjacent (l : List PW)
    (hadj : l.Chain' (fun a b => b.Position = a.Position + 1)) :
    IsSerial.value l = true ↔ ConstantOffset l := by
  induction l with
  | nil => simp [IsSerial.value, ConstantOffset]
  | cons a t ih =>
    cases t with
    | nil =>
      simp [IsSerial.value, IsSerial.EndOfList, ConstantOffset]
    | cons b t =>
      rw [List.chain'_cons] at hadj
      rw [IsSerial_value_cons_cons, ConstantOffset_cons_cons, ih hadj.2]
      have hpos := hadj.1
      constructor
      · rintro ⟨h1, h2⟩
        refine ⟨?_, h2⟩
        rw [hpos]; push_cast; omega
      · rintro ⟨h1, h2⟩
        refine ⟨?_, h2⟩
        rw [hpos] at h1; push_cast at h1; omega

/-- Witness of the amended C5 at the partition of `Porta` in
`PinList<Pa1, Pa2, Pb0>`: `Pa1` at position 0 and `Pa2` at position 1. -/
theorem IsSerial_iff_ConstantOffset_of_adjacent_witness :
    (GetPinsWithPort (PinList [Pa1, Pa2, Pb0]) Porta).Chain'
        (fun a b => b.Position = a.Position + 1) ∧
      (IsSerial.value (GetPinsWithPort (PinList [Pa1, Pa2, Pb0]) Porta) = true ↔
        ConstantOffset (GetPinsWithPort (PinList [Pa1, Pa2, Pb0]) Porta)) :=
  ⟨by simp [PinList, MakePinList, GetPinsWithPort, Pa1, Pa2, Pb0, Porta, Portb],
    IsSerial_iff_ConstantOffset_of_adjacent (GetPinsWithPort (PinList [Pa1, Pa2, Pb0]) Porta)
      (by simp [PinList, MakePinList, GetPinsWithPort, Pa1, Pa2, Pb0, Porta, Portb])⟩

end Pinlist

namespace Pinlist

/-- C6 (port partitioning).  For every pin list, `NoDuplicates<GetPorts<list>>`
holds exactly the ports referenced by the list, each exactly once, ordered by
first appearance in the list; and every positioned pin of the list, as any of
several pins sharing a port, lies in `GetPinsWithPort` of its port, which has
exactly one entry in the port list. -/
theorem NoDuplicates_GetPorts_first_seen (PINS : List PW) :
    (∀ P, P ∈ NoDuplicates (GetPorts PINS) ↔ ∃ pw ∈ PINS, pw.Pin.Port = P) ∧
    (NoDuplicates (GetPorts PINS)).Nodup ∧
    (NoDuplicates (GetPorts PINS)).Pairwise
      (fun P Q => (GetPorts PINS).indexOf P < (GetPorts PINS).indexOf Q) ∧
    (∀ pw ∈ PINS, (NoDuplicates (GetPorts PINS)).count pw.Pin.Port = 1 ∧
      pw ∈ GetPinsWithPort PINS pw.Pin.Port) := by
  refine ⟨fun P => ?_, NoDuplicates_nodup _, NoDuplicates_firstSeen _, fun pw hpw => ⟨?_, ?_⟩⟩
  · rw [mem_NoDuplicates, GetPorts_eq_map, List.mem_map]
  · refine List.count_eq_one_of_mem (NoDuplicates_nodup _) ?_
    rw [mem_NoDuplicates, GetPorts_eq_map]
    exact List.mem_map.2 ⟨pw, hpw, rfl⟩
  · exact mem_GetPinsWithPort.2 ⟨hpw, rfl⟩

/-- C7 (partition membership).  For every pin list and every port `P`,
`GetPinsWithPort<list, P>` is the list filtered to the positioned pins whose
port is `P` (same order, same positions); over the ports of
`NoDuplicates<GetPorts<list>>` the partitions are pairwise disjoint, their
concatenation is a permutation of the list, and their lengths sum to
`Length<list>`. -/
theorem GetPinsWithPort_partitions (PINS : List PW) :
    (∀ P, GetPinsWithPort PINS P = PINS.filter (fun pw => decide (pw.Pin.Port = P))) ∧
    (PinSet.Ports PINS).Pairwise
      (fun P Q => List.Disjoint (GetPinsWithPort PINS P) (GetPinsWithPort PINS Q)) ∧
    ((PinSet.Ports PINS).flatMap (GetPinsWithPort PINS)).Perm PINS ∧
    ((PinSet.Ports PINS).map (fun P => Length (GetPinsWithPort PINS P))).sum = Length PINS := by
  refine ⟨GetPinsWithPort_eq_filter PINS, ?_, partitions_perm PINS, ?_⟩
  · have hnd : (PinSet.Ports PINS).Nodup := NoDuplicates_nodup _
    refine List.Pairwise.imp ?_ hnd
    intro P Q hPQ pw hP hQ
    exact hPQ ((mem_GetPinsWithPort.1 hP).2.symm.trans (mem_GetPinsWithPort.1 hQ).2)
  · have hlen := (partitions_perm PINS).length_eq
    rw [List.length_flatMap] at hlen
    rw [Length_eq_length, ← hlen]
    congr 1
    refine List.map_congr_left (fun P _ => ?_)
    simp [Length_eq_length]

/-- C8 (mask).  For every partition of a well-formed grouping,
`GetPortMask<partition>::value` has exactly `Length<partition>` bits set, and
every set bit is at an index below `Port::Width`. -/
theorem GetPortMask_card (pins : List TPin) (hw : WellFormed pins) (P : Nat) :
    ((Finset.range Port.Width).filter
        (fun b => (GetPortMask (GetPinsWithPort (PinList pins) P)).testBit b = true)).card
      = Length (GetPinsWithPort (PinList pins) P) ∧
    ∀ b, (GetPortMask (GetPinsWithPort (PinList pins) P)).testBit b = true → b < Port.Width := by
  constructor
  · rw [GetPortMask_bits _ (hw.partition_lt P),
      List.toFinset_card_of_nodup (hw.partition_nodup P), List.length_map, Length_eq_length]
  · intro b hb
    obtain ⟨pw, hpw, rfl⟩ := (testBit_GetPortMask _ b).1 hb
    exact hw.partition_lt P pw hpw

/-- Witness of C8 at the partition of `Porta` in `PinList<Pa5, Pa3, Pb0>`. -/
theorem GetPortMask_card_witness :
    WellFormed [Pa5, Pa3, Pb0] ∧
    (((Finset.range Port.Width).filter
        (fun b => (GetPortMask (GetPinsWithPort (PinList [Pa5, Pa3, Pb0]) Porta)).testBit b
          = true)).card
      = Length (GetPinsWithPort (PinList [Pa5, Pa3, Pb0]) Porta) ∧
    ∀ b, (GetPortMask (GetPinsWithPort (PinList [Pa5, Pa3, Pb0]) Porta)).testBit b = true →
      b < Port.Width) :=
  ⟨by decide, GetPortMask_card [Pa5, Pa3, Pb0] (by decide) Porta⟩

/-- C9 (composite value type), evaluated on the code.  `PinSet::DataType` is
`unsigned char` exactly for the groupings of fewer than 8 pins, so the
grouping of the 8 pins `Pa0` to `Pa7` gets `unsigned int`, not the 8-bit type:
the selector is `SelectSize<Length < 8>`. -/
theorem DataType_of_eight_pins :
    (∀ pins : List TPin, PinSet.DataType (PinList pins) = CType.unsignedChar ↔
      PinSet.Length (PinList pins) < 8) ∧
    PinSet.Length (PinList [Pa0, Pa1, Pa2, Pa3, Pa4, Pa5, Pa6, Pa7]) = 8 ∧
    PinSet.DataType (PinList [Pa0, Pa1, Pa2, Pa3, Pa4, Pa5, Pa6, Pa7]) = CType.unsignedInt := by
  refine ⟨fun pins => ?_, by decide, by decide⟩
  unfold PinSet.DataType
  by_cases h : PinSet.Length (PinList pins) < 8 <;> simp [h, SelectSize]

/-- C10 (high bits zero on read).  For every grouping of size `N` built by
`PinList`, well formed or not, and every register state, the values returned
by `Read()` and by `PinRead()` have no bit set at a position `b ≥ N`. -/
theorem Read_high_bits_zero (pins : List TPin) (s : Regs) (b : Nat)
    (hb : PinSet.Length (PinList pins) ≤ b) :
    (PinSet.Read (PinList pins) s).testBit b = false ∧
      (PinSet.PinRead (PinList pins) s).testBit b = false := by
  have hpos : ∀ pw ∈ PinList pins, pw.Position ≠ b := by
    intro pw hpw hEq
    have h1 := (MakePinList_Position_lt 0 pins pw hpw).2
    have h2 : PinSet.Length (PinList pins) = pins.length := by
      unfold PinSet.Length PinList
      rw [Length_eq_length, MakePinList_length]
    omega
  constructor
  · cases hr : (PinSet.Read (PinList pins) s).testBit b
    · rfl
    · obtain ⟨pw, hpw, hEq⟩ := OutRead_bits _ _ _ _ _ hr
      exact absurd hEq (hpos pw hpw)
  · cases hr : (PinSet.PinRead (PinList pins) s).testBit b
    · rfl
    · obtain ⟨pw, hpw, hEq⟩ := PinRead_bits _ _ _ _ _ hr
      exact absurd hEq (hpos pw hpw)

/-- Witness of C10 at `PinList<Pa5, Pa3, Pb0>`, bit 3. -/
theorem Read_high_bits_zero_witness :
    PinSet.Length (PinList [Pa5, Pa3, Pb0]) ≤ 3 ∧
      ((PinSet.Read (PinList [Pa5, Pa3, Pb0]) sampleRegs).testBit 3 = false ∧
        (PinSet.PinRead (PinList [Pa5, Pa3, Pb0]) sampleRegs).testBit 3 = false) :=
  ⟨by decide, Read_high_bits_zero [Pa5, Pa3, Pb0] sampleRegs 3 (by decide)⟩

end Pinlist

/-! ## Facts about the write transform and the bits of the value it uses -/

namespace Pinlist

theorem MakePinList_Position_sorted (k : Nat) (pins : List TPin) :
    (MakePinList k pins).Pairwise (fun a b => a.Position < b.Position) := by
  induction pins generalizing k with
  | nil => simp [MakePinList]
  | cons a t ih =>
    simp only [MakePinList, List.pairwise_cons]
    refine ⟨fun pw hpw => ?_, ih (k + 1)⟩
    have := (MakePinList_Position_lt (k + 1) t pw hpw).1
    omega

theorem partition_Position_sorted (pins : List TPin) (T : Nat) :
    (GetPinsWithPort (PinList pins) T).Pairwise (fun a b => a.Position < b.Position) := by
  rw [GetPinsWithPort_eq_filter]
  exact (MakePinList_Position_sorted 0 pins).sublist (List.filter_sublist _)

theorem partition_Position_lt (pins : List TPin) (T : Nat) :
    ∀ pw ∈ GetPinsWithPort (PinList pins) T, pw.Position < PinSet.Length (PinList pins) := by
  intro pw hpw
  have h1 := (MakePinList_Position_lt 0 pins pw (mem_GetPinsWithPort.1 hpw).1).2
  have h2 : PinSet.Length (PinList pins) = pins.length := by
    unfold PinSet.Length PinList
    rw [Length_eq_length, MakePinList_length]
  omega

/-- In a list flagged by `IsSerial` whose positions increase, the member with
bit number `Number(head) + j` sits at a position not below `Position(head) + j`. -/
theorem serial_member (h : PW) (t : List PW) (hs : IsSerial.value (h :: t) = true)
    (hsorted : (h :: t).Pairwise (fun a b => a.Position < b.Position)) :
    ∀ pw ∈ h :: t, ∃ j, pw.Pin.Number = h.Pin.Number + j ∧ h.Position + j ≤ pw.Position := by
  induction t generalizing h with
  | nil =>
    intro pw hpw
    rw [List.mem_singleton] at hpw
    subst hpw
    exact ⟨0, rfl, Nat.le_refl _⟩
  | cons h2 t ih =>
    intro pw hpw
    rcases List.mem_cons.1 hpw with rfl | hmem
    · exact ⟨0, rfl, Nat.le_refl _⟩
    · obtain ⟨hnum, hs2⟩ := (IsSerial_value_cons_cons h h2 t).1 hs
      have hlt : h.Position < h2.Position := (List.pairwise_cons.1 hsorted).1 h2 (by simp)
      obtain ⟨j, hj1, hj2⟩ := ih h2 hs2 (List.pairwise_cons.1 hsorted).2 pw hmem
      refine ⟨j + 1, ?_, ?_⟩
      · omega
      · omega

theorem and_one_shiftLeft_congr (v w p : Nat) (h : v.testBit p = w.testBit p) :
    v &&& (1 <<< p) = w &&& (1 <<< p) := by
  apply Nat.eq_of_testBit_eq
  intro i
  rw [Nat.testBit_and, Nat.testBit_and, testBit_one_shiftLeft]
  by_cases hi : p = i
  · subst hi; rw [h]
  · simp [hi]

/-- The value computed for a port depends only on the bits of the composite
value below the size of the grouping. -/
theorem UppendValue_congr (l : List PW) (N v w : Nat)
    (hsorted : l.Pairwise (fun a b => a.Position < b.Position))
    (hlt : ∀ pw ∈ l, pw.Position < N)
    (hagree : ∀ i, i < N → v.testBit i = w.testBit i) :
    PinWriteIterator.UppendValue l v = PinWriteIterator.UppendValue l w := by
  induction l with
  | nil => rfl
  | cons a t ih =>
    have iht := ih (List.pairwise_cons.1 hsorted).2 (fun pw hpw => hlt pw (List.mem_cons_of_mem _ hpw))
    have hhead := and_one_shiftLeft_congr v w a.Position (hagree _ (hlt a (by simp)))
    unfold PinWriteIterator.UppendValue
    by_cases hs : IsSerial.value (a :: t) = true
    · rw [if_pos hs, if_pos hs]
      have hmask : ∀ b, (GetPortMask (a :: t)).testBit b = true →
          ∃ j, b = a.Pin.Number + j ∧ a.Position + j < N := by
        intro b hb
        obtain ⟨pw, hpw, rfl⟩ := (testBit_GetPortMask _ _).1 hb
        obtain ⟨j, hj1, hj2⟩ := serial_member a t hs hsorted pw hpw
        exact ⟨j, hj1, Nat.lt_of_le_of_lt hj2 (hlt pw hpw)⟩
      by_cases hgt : a.Position > a.Pin.Number
      · rw [if_pos hgt, if_pos hgt]
        apply Nat.eq_of_testBit_eq
        intro b
        simp only [testBit_mod_256, Nat.testBit_and, Nat.testBit_shiftRight]
        cases hm : (GetPortMask (a :: t)).testBit b
        · simp
        · obtain ⟨j, hj1, hj2⟩ := hmask b hm
          have hidx : a.Position - a.Pin.Number + b = a.Position + j := by omega
          rw [hidx, hagree _ hj2]
      · rw [if_neg hgt, if_neg hgt]
        apply Nat.eq_of_testBit_eq
        intro b
        simp only [testBit_mod_256, testBit_mod_65536, Nat.testBit_and, Nat.testBit_shiftLeft]
        cases hm : (GetPortMask (a :: t)).testBit b
        · simp
        · obtain ⟨j, hj1, hj2⟩ := hmask b hm
          have hidx : b - (a.Pin.Number - a.Position) = a.Position + j := by omega
          rw [hidx, hagree _ hj2]
    · rw [if_neg hs, if_neg hs]
      simp only [hhead, iht]

theorem PortWriteIterator_Write_congr (ports : List Nat) (PINS : List PW) (v w : Nat)
    (s : Regs)
    (h : ∀ P, PinWriteIterator.UppendValue (GetPinsWithPort PINS P) v
      = PinWriteIterator.UppendValue (GetPinsWithPort PINS P) w) :
    PortWriteIterator.Write ports PINS v s = PortWriteIterator.Write ports PINS w s := by
  induction ports generalizing s with
  | nil => rfl
  | cons Head Tail ih =>
    simp only [PortWriteIterator.Write, h Head]
    exact ih _

theorem cast_agree (t : CType) (N v w : Nat) (h : ∀ i, i < N → v.testBit i = w.testBit i) :
    ∀ i, i < N → (t.cast v).testBit i = (t.cast w).testBit i := by
  intro i hi
  rw [testBit_cast, testBit_cast, h i hi]

end Pinlist

/-! ## Facts about `Set`, `Clear`, `DirWrite`, `PinRead` and the frame of `Write` -/

namespace Pinlist

theorem low_byte (v : Nat) :
    ((((CType.unsignedInt.cast v) <<< 0) % 65536) &&& 255) % 256 = v % 256 := by
  apply Nat.eq_of_testBit_eq
  intro i
  have h255 : (255 : Nat).testBit i = decide (i < 8) := Nat.testBit_two_pow_sub_one 8 i
  simp only [testBit_mod_256, testBit_mod_65536, Nat.testBit_and, Nat.testBit_shiftLeft,
    testBit_cast, h255, CType.bits]
  by_cases hi : i < 8
  · have : i < 16 := by omega
    simp [hi, this]
  · simp [hi]

theorem PortWriteIterator_Write_dir (ports : List Nat) (PINS : List PW) (value : Nat)
    (s : Regs) : (PortWriteIterator.Write ports PINS value s).dir = s.dir := by
  induction ports generalizing s with
  | nil => rfl
  | cons Head Tail ih =>
    simp only [PortWriteIterator.Write]
    rw [ih]
    split <;> rfl

theorem PortWriteIterator_Write_pin (ports : List Nat) (PINS : List PW) (value : Nat)
    (s : Regs) : (PortWriteIterator.Write ports PINS value s).pin = s.pin := by
  induction ports generalizing s with
  | nil => rfl
  | cons Head Tail ih =>
    simp only [PortWriteIterator.Write]
    rw [ih]
    split <;> rfl

theorem PortWriteIterator_Write_data_of_not_mem (ports : List Nat) (PINS : List PW)
    (value : Nat) (s : Regs) (P : Nat) (hP : P ∉ ports) :
    (PortWriteIterator.Write ports PINS value s).data P = s.data P := by
  induction ports generalizing s with
  | nil => rfl
  | cons Head Tail ih =>
    have hne : P ≠ Head := fun h => hP (by simp [h])
    simp only [PortWriteIterator.Write]
    rw [ih _ (fun h => hP (List.mem_cons_of_mem _ h))]
    split <;> simp [Port.Write, Function.update_noteq hne]

theorem PortWriteIterator_Clear_no_rise (ports : List Nat) (PINS : List PW) (value : Nat)
    (s : Regs) (P b : Nat)
    (h : ((PortWriteIterator.Clear ports PINS value s).data P).testBit b = true) :
    (s.data P).testBit b = true := by
  induction ports generalizing s with
  | nil => exact h
  | cons Head Tail ih =>
    simp only [PortWriteIterator.Clear] at h
    have h1 := ih _ h
    by_cases hP : Head = P
    · subst hP
      simp only [Port.Clear, Function.update_same, testBit_mod_256, Nat.testBit_and,
        Bool.and_eq_true] at h1
      exact h1.2.1.2
    · simpa [Port.Clear, Function.update_noteq (Ne.symm hP)] using h1

theorem PortWriteIterator_Clear_outside (ports : List Nat) (PINS : List PW) (value : Nat)
    (s : Regs) (P b : Nat) (hb : b < Port.Width)
    (hout : (GetPortMask (GetPinsWithPort PINS P)).testBit b = false) :
    ((PortWriteIterator.Clear ports PINS value s).data P).testBit b = (s.data P).testBit b := by
  induction ports generalizing s with
  | nil => rfl
  | cons Head Tail ih =>
    simp only [PortWriteIterator.Clear]
    rw [ih]
    by_cases hP : Head = P
    · subst hP
      have hres : (PinWriteIterator.UppendValue (GetPinsWithPort PINS Head) value).testBit b
          = false := by
        cases hr : (PinWriteIterator.UppendValue (GetPinsWithPort PINS Head) value).testBit b
        · rfl
        · rw [UppendValue_le_mask _ _ _ hr] at hout; cases hout
      have hb8 : b < 8 := hb
      have hb16 : b < 16 := by omega
      simp [Port.Clear, testBit_mod_256, testBit_complement, hres, hb8, hb16]
    · simp [Port.Clear, Function.update_noteq (Ne.symm hP)]

theorem PortWriteIterator_DirWrite_swap (ports : List Nat) (PINS : List PW) (value : Nat)
    (s : Regs) :
    (PortWriteIterator.DirWrite ports PINS value s).swapDataDir
      = PortWriteIterator.Write ports PINS value s.swapDataDir := by
  induction ports generalizing s with
  | nil => rfl
  | cons Head Tail ih =>
    simp only [PortWriteIterator.DirWrite, PortWriteIterator.Write]
    rw [ih]
    congr 1
    split <;> rfl

theorem PortWriteIterator_PinRead_eq_OutRead (DataType : CType) (ports : List Nat)
    (PINS : List PW) (s : Regs) :
    PortWriteIterator.PinRead DataType ports PINS s
      = PortWriteIterator.OutRead DataType ports PINS s.pinAsData := by
  induction ports with
  | nil => rfl
  | cons Head Tail ih =>
    simp only [PortWriteIterator.PinRead, PortWriteIterator.OutRead, ih]
    rfl

/-- Replaying the recorded accesses of `Write` gives the state `Write` leaves. -/
theorem WriteAccesses_replay (ports : List Nat) (PINS : List PW) (value : Nat) (s : Regs) :
    (PortWriteIterator.WriteAccesses ports PINS value s).foldl (fun st a => a.apply st) s
      = PortWriteIterator.Write ports PINS value s := by
  induction ports generalizing s with
  | nil => rfl
  | cons Head Tail ih =>
    have hmod : ∀ x, Port.Write Head (x % 256) s = Port.Write Head x s := by
      intro x; simp [Port.Write]
    simp only [PortWriteIterator.WriteAccesses, PortWriteIterator.Write]
    split
    · simp only [List.foldl_cons, Access.apply, hmod]
      exact ih _
    · simp only [List.foldl_cons, Access.apply, hmod]
      exact ih _

theorem MakePinList_getElem? (k : Nat) (pins : List TPin) (i : Nat) :
    (MakePinList k pins)[i]? = (pins[i]?).map (fun p => PW.mk p (k + i)) := by
  induction pins generalizing k i with
  | nil => simp [MakePinList]
  | cons a t ih =>
    cases i with
    | zero => simp [MakePinList]
    | succ i =>
      simp only [MakePinList, List.getElem?_cons_succ, ih]
      congr 1
      funext p
      congr 1
      omega

theorem MakePinList_map_Position (k : Nat) (pins : List TPin) :
    (MakePinList k pins).map (fun pw => pw.Position) = List.range' k pins.length := by
  induction pins generalizing k with
  | nil => rfl
  | cons a t ih => simp [MakePinList, ih, List.range']

end Pinlist

/-! ## The claims on writing, setting, clearing and directions -/

namespace Pinlist

/-- C11 (high bits ignored on write).  For every grouping of size `N` built by
`PinList`, every register state and every two composite values that agree on
the bits `0..N-1`, `Write` of the one and `Write` of the other leave the same
register state. -/
theorem Write_ignores_high_bits (pins : List TPin) (s : Regs) (v w : Nat)
    (hagree : ∀ i, i < PinSet.Length (PinList pins) → v.testBit i = w.testBit i) :
    PinSet.Write (PinList pins) v s = PinSet.Write (PinList pins) w s := by
  unfold PinSet.Write
  refine PortWriteIterator_Write_congr _ _ _ _ s (fun P => ?_)
  exact UppendValue_congr _ (PinSet.Length (PinList pins)) _ _
    (partition_Position_sorted pins P) (partition_Position_lt pins P)
    (cast_agree _ _ v w hagree)

/-- Witness of C11 at `PinList<Pa5, Pa3, Pb0>` with the values `0b0000101`
and `0b1001101`, which agree on the bits 0, 1 and 2. -/
theorem Write_ignores_high_bits_witness :
    (∀ i, i < PinSet.Length (PinList [Pa5, Pa3, Pb0]) → (5 : Nat).testBit i = (77 : Nat).testBit i) ∧
      PinSet.Write (PinList [Pa5, Pa3, Pb0]) 5 sampleRegs
        = PinSet.Write (PinList [Pa5, Pa3, Pb0]) 77 sampleRegs :=
  ⟨by decide, Write_ignores_high_bits [Pa5, Pa3, Pb0] sampleRegs 5 77 (by decide)⟩

/-- C12 (scenario, write part).  For the grouping `Pa5` at position 0, `Pa3` at
position 1, `Pb0` at position 2 and every initial register state,
`Write(0b101)` leaves data bit 5 of `Porta` set, data bit 3 of `Porta` clear,
data bit 0 of `Portb` set, and every other data bit of `Porta` and of `Portb`
as it was. -/
theorem Write_scenario (s : Regs) :
    ((PinSet.Write (PinList [Pa5, Pa3, Pb0]) 5 s).data Porta).testBit 5 = true ∧
    ((PinSet.Write (PinList [Pa5, Pa3, Pb0]) 5 s).data Porta).testBit 3 = false ∧
    ((PinSet.Write (PinList [Pa5, Pa3, Pb0]) 5 s).data Portb).testBit 0 = true ∧
    (∀ b, b < Port.Width → b ≠ 5 → b ≠ 3 →
      ((PinSet.Write (PinList [Pa5, Pa3, Pb0]) 5 s).data Porta).testBit b
        = (s.data Porta).testBit b) ∧
    (∀ b, b < Port.Width → b ≠ 0 →
      ((PinSet.Write (PinList [Pa5, Pa3, Pb0]) 5 s).data Portb).testBit b
        = (s.data Portb).testBit b) := by
  have hA : (PinSet.Write (PinList [Pa5, Pa3, Pb0]) 5 s).data Porta
      = ((s.data Porta % 256 &&& complement ((1 <<< 5) ||| (1 <<< 3))) ||| (1 <<< 5)) % 256 := rfl
  have hB : (PinSet.Write (PinList [Pa5, Pa3, Pb0]) 5 s).data Portb
      = ((s.data Portb % 256 &&& complement (1 <<< 0)) ||| (1 <<< 0)) % 256 := rfl
  rw [hA, hB]
  simp only [testBit_mod_256, Nat.testBit_or, Nat.testBit_and, testBit_complement,
    testBit_one_shiftLeft, Port.Width]
  refine ⟨by simp, by simp, by simp, ?_, ?_⟩
  · intro b hb h5 h3
    have hb16 : b < 16 := by omega
    simp [hb, hb16, Ne.symm h5, Ne.symm h3]
  · intro b hb h0
    have hb16 : b < 16 := by omega
    simp [hb, hb16, Ne.symm h0]

/-- C13 (scenario, identity full port).  For the grouping of the 8 pins of one
port `P` in which the pin at position `i` is bit `i`: the port list is `P`
alone, the partition is flagged by `IsSerial`, every member has
`Position = Pin::Number` (offset 0), `Length` of the partition is `Port::Width`,
`Write(v)` makes the single port access `Port::Write(v mod 256)` and no
`Port::Read()`, the state it leaves is the state of that store, and the byte
in the data register is `v mod 256` whatever the register held before. -/
theorem Write_identity_full_port (P v : Nat) (s : Regs) :
    PinSet.Ports (PinList ((List.range 8).map (TPin.mk P))) = [P] ∧
    IsSerial.value (GetPinsWithPort (PinList ((List.range 8).map (TPin.mk P))) P) = true ∧
    (∀ pw ∈ GetPinsWithPort (PinList ((List.range 8).map (TPin.mk P))) P,
      pw.Position = pw.Pin.Number) ∧
    Length (GetPinsWithPort (PinList ((List.range 8).map (TPin.mk P))) P) = Port.Width ∧
    PinSet.WriteAccesses (PinList ((List.range 8).map (TPin.mk P))) v s
      = [Access.write P (v % 256)] ∧
    PinSet.Write (PinList ((List.range 8).map (TPin.mk P))) v s = Port.Write P (v % 256) s ∧
    (PinSet.Write (PinList ((List.range 8).map (TPin.mk P))) v s).data P = v % 256 := by
  have hl : PinList ((List.range 8).map (TPin.mk P))
      = [⟨⟨P, 0⟩, 0⟩, ⟨⟨P, 1⟩, 1⟩, ⟨⟨P, 2⟩, 2⟩, ⟨⟨P, 3⟩, 3⟩, ⟨⟨P, 4⟩, 4⟩, ⟨⟨P, 5⟩, 5⟩,
          ⟨⟨P, 6⟩, 6⟩, ⟨⟨P, 7⟩, 7⟩] := by
    simp [PinList, MakePinList, List.range, List.range.loop]
  have hp : GetPinsWithPort (PinList ((List.range 8).map (TPin.mk P))) P
      = PinList ((List.range 8).map (TPin.mk P)) := by
    rw [hl]; simp [GetPinsWithPort]
  have hports : PinSet.Ports (PinList ((List.range 8).map (TPin.mk P))) = [P] := by
    rw [hl]; simp [PinSet.Ports, GetPorts, NoDuplicates, Erase]
  have hser : IsSerial.value (PinList ((List.range 8).map (TPin.mk P))) = true := by
    rw [hl]; simp [IsSerial.value, IsSerial.PinNumber, IsSerial.EndOfList]
  have hlen : Length (PinList ((List.range 8).map (TPin.mk P))) = Port.Width := by
    rw [hl]; rfl
  have hmask : GetPortMask (PinList ((List.range 8).map (TPin.mk P))) = 255 := by
    rw [hl]; simp [GetPortMask]
  have hdt : PinSet.DataType (PinList ((List.range 8).map (TPin.mk P)))
      = CType.unsignedInt := by
    rw [hl]; rfl
  have hval : PinWriteIterator.UppendValue (PinList ((List.range 8).map (TPin.mk P)))
      (CType.unsignedInt.cast v) = v % 256 := by
    rw [← low_byte v, ← hmask]
    rw [hl]
    rfl
  have hw : PinSet.Write (PinList ((List.range 8).map (TPin.mk P))) v s
      = Port.Write P (v % 256) s := by
    unfold PinSet.Write
    rw [hports, hdt]
    simp only [PortWriteIterator.Write, hp, hlen, if_true]
    rw [hval]
  refine ⟨hports, by rw [hp]; exact hser, ?_, by rw [hp]; exact hlen, ?_, hw, ?_⟩
  · rw [hp, hl]; simp
  · unfold PinSet.WriteAccesses
    rw [hports, hdt]
    simp only [PortWriteIterator.WriteAccesses, hp, hlen, if_true]
    rw [hval, Nat.mod_mod]
  · rw [hw]
    simp [Port.Write]

/-- C14 (set semantics), evaluated on the code.  In the well-formed grouping
`PinList<Pa0, Pb0, Pa1>` the pin at position 2 is `Pa1`.  `Set(0b100)` leaves
data bit 1 of `Porta` as it was instead of setting it, and `Set(0b010)`, whose
bit 2 is clear, sets it: the partition of `Porta` is flagged by `IsSerial`
although its positions are 0 and 2, so `UppendValue` takes bit 1 of the value
for `Pa1`. -/
theorem Set_uses_wrong_value_bit :
    WellFormed [Pa0, Pb0, Pa1] ∧
    (∀ s : Regs, ((PinSet.Set (PinList [Pa0, Pb0, Pa1]) 4 s).data Porta).testBit 1
      = (s.data Porta).testBit 1) ∧
    (∀ s : Regs, ((PinSet.Set (PinList [Pa0, Pb0, Pa1]) 2 s).data Porta).testBit 1 = true) := by
  refine ⟨by decide, fun s => ?_, fun s => ?_⟩
  · have h : (PinSet.Set (PinList [Pa0, Pb0, Pa1]) 4 s).data Porta
        = (s.data Porta % 256 ||| 0 % 256) % 256 := rfl
    rw [h]
    simp [testBit_mod_256]
  · have h : (PinSet.Set (PinList [Pa0, Pb0, Pa1]) 2 s).data Porta
        = (s.data Porta % 256 ||| (1 <<< 1) % 256) % 256 := rfl
    rw [h]
    simp only [testBit_mod_256, Nat.testBit_or, testBit_one_shiftLeft]
    simp

/-- C15 (clear frame).  For every grouping built by `PinList`, every value and
every register state, `Clear(value)` turns no data bit from 0 to 1, and it
leaves every data bit (below the port width) outside the partition mask of its
port as it was. -/
theorem Clear_frame (pins : List TPin) (value : Nat) (s : Regs) (P b : Nat) :
    (((PinSet.Clear (PinList pins) value s).data P).testBit b = true →
      (s.data P).testBit b = true) ∧
    (b < Port.Width → (GetPortMask (GetPinsWithPort (PinList pins) P)).testBit b = false →
      ((PinSet.Clear (PinList pins) value s).data P).testBit b = (s.data P).testBit b) :=
  ⟨PortWriteIterator_Clear_no_rise _ _ _ s P b,
    PortWriteIterator_Clear_outside _ _ _ s P b⟩

/-- Witness of C15 at `PinList<Pa5, Pa3, Pb0>`, value `0b001`, port `Porta`
holding `0xC3`: bit 7 is set afterwards and was set before; bit 0 is outside
the mask and keeps its value. -/
theorem Clear_frame_witness :
    ((PinSet.Clear (PinList [Pa5, Pa3, Pb0]) 1 sampleRegs).data Porta).testBit 7 = true ∧
    (sampleRegs.data Porta).testBit 7 = true ∧
    (0 < Port.Width ∧
      (GetPortMask (GetPinsWithPort (PinList [Pa5, Pa3, Pb0]) Porta)).testBit 0 = false) ∧
    ((PinSet.Clear (PinList [Pa5, Pa3, Pb0]) 1 sampleRegs).data Porta).testBit 0
      = (sampleRegs.data Porta).testBit 0 :=
  ⟨by decide,
    (Clear_frame [Pa5, Pa3, Pb0] 1 sampleRegs Porta 7).1 (by decide),
    ⟨by decide, by decide⟩,
    (Clear_frame [Pa5, Pa3, Pb0] 1 sampleRegs Porta 0).2 (by decide) (by decide)⟩

end Pinlist

namespace Pinlist

/-- C16 (direction write mirrors write).  For every grouping, every value and
every register state `s`, the direction registers after `DirWrite(value)` on
`s` are the data registers after `Write(value)` on `s` with the data and
direction registers of every port exchanged, and `DirWrite` leaves all data
registers as they were. -/
theorem DirWrite_mirrors_Write (PINS : List PW) (value : Nat) (s : Regs) :
    (PinSet.DirWrite PINS value s).dir = (PinSet.Write PINS value s.swapDataDir).data ∧
    (PinSet.DirWrite PINS value s).data = s.data := by
  have h := PortWriteIterator_DirWrite_swap (PinSet.Ports PINS) PINS
    ((PinSet.DataType PINS).cast value) s
  constructor
  · exact congrArg Regs.data h
  · have h2 := congrArg Regs.dir h
    rw [PortWriteIterator_Write_dir] at h2
    exact h2

/-- C17 (`PinRead` mirrors `Read`).  For every grouping and every register
state `s`, `PinRead()` on `s` returns what `Read()` returns on `s` with the
data register of every port replaced by its pin-state register. -/
theorem PinRead_mirrors_Read (PINS : List PW) (s : Regs) :
    PinSet.PinRead PINS s = PinSet.Read PINS s.pinAsData :=
  PortWriteIterator_PinRead_eq_OutRead _ _ _ s

/-- C18 (position assignment).  For every list of `n` pins,
`MakePinList<0, ...>::Result`, the list of `PinList`, has exactly `n` entries,
its `i`-th entry wraps the `i`-th given pin with `Position` `i`, and its
positions are exactly `0..n-1`, hence pairwise distinct. -/
theorem MakePinList_positions (pins : List TPin) :
    PinList pins = MakePinList 0 pins ∧
    Length (MakePinList 0 pins) = pins.length ∧
    (∀ i, (MakePinList 0 pins)[i]? = (pins[i]?).map (fun p => PW.mk p i)) ∧
    (MakePinList 0 pins).map (fun pw => pw.Position) = List.range pins.length ∧
    ((MakePinList 0 pins).map (fun pw => pw.Position)).Nodup := by
  have hpos : (MakePinList 0 pins).map (fun pw => pw.Position) = List.range pins.length := by
    rw [MakePinList_map_Position, List.range_eq_range']
  refine ⟨rfl, ?_, fun i => ?_, hpos, ?_⟩
  · rw [Length_eq_length, MakePinList_length]
  · rw [MakePinList_getElem?]
    simp
  · rw [hpos]
    exact List.nodup_range _

/-- C19 (write frame).  For every grouping built by `PinList`, every value and
every register state, `Write(value)` changes no direction register, no
pin-state register, and no data register of a port that no pin of the grouping
belongs to. -/
theorem Write_frame (pins : List TPin) (value : Nat) (s : Regs) :
    (PinSet.Write (PinList pins) value s).dir = s.dir ∧
    (PinSet.Write (PinList pins) value s).pin = s.pin ∧
    ∀ P, (∀ p ∈ pins, p.Port ≠ P) → (PinSet.Write (PinList pins) value s).data P = s.data P := by
  refine ⟨PortWriteIterator_Write_dir _ _ _ s, PortWriteIterator_Write_pin _ _ _ s,
    fun P hP => ?_⟩
  refine PortWriteIterator_Write_data_of_not_mem _ _ _ s P (fun hmem => ?_)
  unfold PinSet.Ports at hmem
  rw [mem_NoDuplicates, GetPorts_eq_map] at hmem
  obtain ⟨pw, hpw, hport⟩ := List.mem_map.1 hmem
  exact hP pw.Pin (mem_PinList_Pin hpw) hport

/-- Witness of C19 at `PinList<Pa5, Pa3>` and the port `Portb`, to which no
pin of the grouping belongs. -/
theorem Write_frame_witness :
    (∀ p ∈ [Pa5, Pa3], p.Port ≠ Portb) ∧
      (PinSet.Write (PinList [Pa5, Pa3]) 3 sampleRegs).data Portb = sampleRegs.data Portb :=
  ⟨by decide, (Write_frame [Pa5, Pa3] 3 sampleRegs).2.2 Portb (by decide)⟩

/-- C20 (shift direction on read), evaluated on the code.  The partition of
`Porta` in `PinList<Pb0, Pa0>` is `Pa0` at position 1 (`Position > Number`):
`UppendReadValue` shifts the port value right by 1, so the port value 1 reads
as 0 where the left shift gives `0b10`.  The partition of `PinList<Pa1>` is
`Pa1` at position 0 (`Position < Number`): `UppendReadValue` shifts the port
value left by 1, so the port value `0b10` reads as 0 where the right shift
gives 1. -/
theorem UppendReadValue_shift_direction :
    GetPinsWithPort (PinList [Pb0, Pa0]) Porta = [⟨Pa0, 1⟩] ∧
    IsSerial.value [⟨Pa0, 1⟩] = true ∧
    (∀ (DataType : CType) (portValue : Nat),
      PinWriteIterator.UppendReadValue DataType [⟨Pa0, 1⟩] portValue
        = DataType.cast ((portValue >>> 1) &&& GetValueMask [⟨Pa0, 1⟩])) ∧
    PinWriteIterator.UppendReadValue CType.unsignedChar [⟨Pa0, 1⟩] 1 = 0 ∧
    ((1 <<< 1) &&& GetValueMask [⟨Pa0, 1⟩]) = 2 ∧
    GetPinsWithPort (PinList [Pa1]) Porta = [⟨Pa1, 0⟩] ∧
    IsSerial.value [⟨Pa1, 0⟩] = true ∧
    (∀ (DataType : CType) (portValue : Nat),
      PinWriteIterator.UppendReadValue DataType [⟨Pa1, 0⟩] portValue
        = DataType.cast (((portValue <<< 1) % 65536) &&& GetValueMask [⟨Pa1, 0⟩])) ∧
    PinWriteIterator.UppendReadValue CType.unsignedChar [⟨Pa1, 0⟩] 2 = 0 ∧
    ((2 >>> 1) &&& GetValueMask [⟨Pa1, 0⟩]) = 1 :=
  ⟨by decide, by decide, fun _ _ => rfl, by decide, by decide, by decide, by decide,
    fun _ _ => rfl, by decide, by decide⟩

end Pinlist

/-! ## Facts about the byte a write leaves in a data register -/

namespace Pinlist

theorem Regs_ext {a b : Regs} (h1 : a.data = b.data) (h2 : a.dir = b.dir)
    (h3 : a.pin = b.pin) : a = b := by
  cases a; cases b; simp_all

theorem merge_idem (x M r : Nat) :
    ((((x % 256 &&& complement M) ||| r) % 256 % 256 &&& complement M) ||| r) % 256
      = ((x % 256 &&& complement M) ||| r) % 256 := by
  apply Nat.eq_of_testBit_eq
  intro b
  simp only [testBit_mod_256, Nat.testBit_or, Nat.testBit_and, testBit_complement]
  cases x.testBit b <;> cases M.testBit b <;> cases r.testBit b <;> simp

theorem merge_absorb (x M ra rb : Nat)
    (h : ∀ b, ra.testBit b = true → M.testBit b = true) :
    ((((x % 256 &&& complement M) ||| ra) % 256 % 256 &&& complement M) ||| rb) % 256
      = ((x % 256 &&& complement M) ||| rb) % 256 := by
  apply Nat.eq_of_testBit_eq
  intro b
  simp only [testBit_mod_256, Nat.testBit_or, Nat.testBit_and, testBit_complement]
  cases hra : ra.testBit b
  · cases x.testBit b <;> cases M.testBit b <;> cases rb.testBit b <;> simp
  · rw [h b hra]
    cases x.testBit b <;> cases rb.testBit b <;> simp

/-- The byte that `Write` leaves in the data register of a port: for a port of
the port list the byte stored by its step, computed from the register's
content before the call; for any other port the content before the call. -/
theorem PortWriteIterator_Write_data (ports : List Nat) (PINS : List PW) (value : Nat)
    (s : Regs) (P : Nat) :
    (PortWriteIterator.Write ports PINS value s).data P =
      if P ∈ ports then
        (if Length (GetPinsWithPort PINS P) = Port.Width then
          PinWriteIterator.UppendValue (GetPinsWithPort PINS P) value % 256
        else
          ((s.data P % 256 &&& complement (GetPortMask (GetPinsWithPort PINS P)))
            ||| PinWriteIterator.UppendValue (GetPinsWithPort PINS P) value) % 256)
      else s.data P := by
  induction ports generalizing s with
  | nil => simp [PortWriteIterator.Write]
  | cons Head Tail ih =>
    simp only [PortWriteIterator.Write]
    rw [ih]
    by_cases hP : P = Head
    · subst hP
      by_cases hlen : Length (GetPinsWithPort PINS P) = Port.Width
      · simp [hlen, Port.Write]
      · by_cases hT : P ∈ Tail
        · simp only [hlen, if_false, hT, if_true, List.mem_cons, true_or, Port.Write,
            Port.Read, Function.update_same]
          exact merge_idem _ _ _
        · simp [hlen, hT, Port.Write, Port.Read]
    · have hne : (P ∈ Head :: Tail) ↔ P ∈ Tail := by simp [hP]
      have hs1 : ∀ (c : Prop) [Decidable c] (x y : Nat),
          (if c then Port.Write Head x s else Port.Write Head y s).data P = s.data P := by
        intro c _ x y
        split <;> simp [Port.Write, Function.update_noteq hP]
      simp only [hne, hs1]

theorem PortWriteIterator_Write_Write (ports : List Nat) (PINS : List PW) (a b : Nat)
    (s : Regs) :
    PortWriteIterator.Write ports PINS b (PortWriteIterator.Write ports PINS a s)
      = PortWriteIterator.Write ports PINS b s := by
  apply Regs_ext
  · funext P
    rw [PortWriteIterator_Write_data, PortWriteIterator_Write_data ports PINS b s,
      PortWriteIterator_Write_data ports PINS a s]
    by_cases hP : P ∈ ports
    · simp only [hP, if_true]
      by_cases hlen : Length (GetPinsWithPort PINS P) = Port.Width
      · simp only [hlen, if_true]
      · simp only [hlen, if_false]
        exact merge_absorb _ _ _ _ (fun bit h => UppendValue_le_mask _ _ _ h)
    · simp only [hP, if_false]
  · rw [PortWriteIterator_Write_dir, PortWriteIterator_Write_dir, PortWriteIterator_Write_dir]
  · rw [PortWriteIterator_Write_pin, PortWriteIterator_Write_pin, PortWriteIterator_Write_pin]

theorem full_mask_merge (x M r : Nat) (hM : ∀ b, b < 8 → M.testBit b = true) :
    ((x % 256 &&& complement M) ||| r) % 256 = r % 256 := by
  apply Nat.eq_of_testBit_eq
  intro b
  simp only [testBit_mod_256, Nat.testBit_or, Nat.testBit_and, testBit_complement]
  by_cases hb : b < 8
  · simp [hb, hM b hb]
  · simp [hb]

end Pinlist

/-! ## Facts about the definition of pins and groupings -/

namespace Pinlist

theorem TPin_define_eq_some (PORT PIN : Nat) (h : PIN < Port.Width) :
    TPin.define PORT PIN = some ⟨PORT, PIN⟩ := by
  simp [TPin.define, BOOST_STATIC_ASSERT, h]

theorem TPin_define_eq_none (PORT PIN : Nat) (h : ¬ PIN < Port.Width) :
    TPin.define PORT PIN = none := by
  simp [TPin.define, BOOST_STATIC_ASSERT, h]

theorem TPin_define_some (PORT PIN : Nat) (p : TPin) (h : TPin.define PORT PIN = some p) :
    p = ⟨PORT, PIN⟩ ∧ PIN < Port.Width := by
  by_cases hlt : PIN < Port.Width
  · rw [TPin_define_eq_some PORT PIN hlt] at h
    exact ⟨(Option.some.inj h).symm, hlt⟩
  · rw [TPin_define_eq_none PORT PIN hlt] at h
    cases h

theorem TPin_defineAll_of_lt (pairs : List (Nat × Nat))
    (h : ∀ x ∈ pairs, x.2 < Port.Width) :
    TPin.defineAll pairs = some (pairs.map (fun x => TPin.mk x.1 x.2)) := by
  induction pairs with
  | nil => rfl
  | cons x xs ih =>
    have hx := TPin_define_eq_some x.1 x.2 (h x (by simp))
    have hxs := ih (fun y hy => h y (List.mem_cons_of_mem _ hy))
    simp [TPin.defineAll, hx, hxs]

theorem TPin_defineAll_some (pairs : List (Nat × Nat)) (ps : List TPin)
    (h : TPin.defineAll pairs = some ps) : ∀ p ∈ ps, p.Number < Port.Width := by
  induction pairs generalizing ps with
  | nil =>
    simp only [TPin.defineAll, Option.some.injEq] at h
    subst h
    simp
  | cons x xs ih =>
    unfold TPin.defineAll at h
    cases h1 : TPin.define x.1 x.2 with
    | none => rw [h1] at h; cases h
    | some q =>
      cases h2 : TPin.defineAll xs with
      | none => rw [h1, h2] at h; cases h
      | some qs =>
        rw [h1, h2] at h
        simp only [Option.some.injEq] at h
        subst h
        intro p hp
        rcases List.mem_cons.1 hp with rfl | hp
        · obtain ⟨hq, hlt⟩ := TPin_define_some _ _ _ h1
          rw [hq]; exact hlt
        · exact ih qs h2 p hp

end Pinlist

/-! ## The claims on definition time and repeated writes -/

namespace Pinlist

/-- C21 (single-pin partition).  For every positioned pin, whatever its
`Position` and its `Pin::Number`, `IsSerial` of the one-element list holding
it is true. -/
theorem IsSerial_single (pw : PW) : IsSerial.value [pw] = true := by
  simp [IsSerial.value, IsSerial.EndOfList]

/-- C22 as stated fails.  The grouping `PinList<Pa0, Pa0>`, which lists the pin
bit 0 of `Porta` twice, is defined: it holds `Pa0` at position 0 and `Pa0` at
position 1, has `Length` 2, and `Write` runs on it. -/
theorem PinList_define_duplicate_pin :
    ¬ ([Pa0, Pa0] : List TPin).Nodup ∧
    PinList.define [(Porta, 0), (Porta, 0)] = some [⟨Pa0, 0⟩, ⟨Pa0, 1⟩] ∧
    PinSet.Length (PinList [Pa0, Pa0]) = 2 ∧
    (PinSet.Write (PinList [Pa0, Pa0]) 2 sampleRegs).data Porta = 195 := by
  decide

/-- C22 amended.  A grouping that lists the same (port, bit) pin twice is not
rejected at definition time: for every list of 1 to 16 (port, bit) pairs whose
bits are below the port width and which names some pin twice, the grouping is
defined, it holds one positioned entry for every listed pair, in the order
listed, and its pins are not pairwise distinct. -/
theorem PinList_define_accepts (pairs : List (Nat × Nat)) (hne : 1 ≤ pairs.length)
    (hlen : pairs.length ≤ 16) (hlt : ∀ x ∈ pairs, x.2 < Port.Width) (hdup : ¬ pairs.Nodup) :
    PinList.define pairs = some (PinList (pairs.map (fun x => TPin.mk x.1 x.2))) ∧
    (PinList (pairs.map (fun x => TPin.mk x.1 x.2))).map (fun pw => (pw.Pin.Port, pw.Pin.Number))
      = pairs ∧
    Length (PinList (pairs.map (fun x => TPin.mk x.1 x.2))) = pairs.length ∧
    ¬ ((PinList (pairs.map (fun x => TPin.mk x.1 x.2))).map (fun pw => pw.Pin)).Nodup := by
  have hpin := MakePinList_map_Pin 0 (pairs.map (fun x => TPin.mk x.1 x.2))
  refine ⟨?_, ?_, ?_, ?_⟩
  · unfold PinList.define
    rw [if_pos (by omega), TPin_defineAll_of_lt pairs hlt]
    rfl
  · unfold PinList
    have h2 : (MakePinList 0 (pairs.map (fun x => TPin.mk x.1 x.2))).map
          (fun pw => (pw.Pin.Port, pw.Pin.Number))
        = ((MakePinList 0 (pairs.map (fun x => TPin.mk x.1 x.2))).map (fun pw => pw.Pin)).map
          (fun p => (p.Port, p.Number)) := by
      simp [List.map_map, Function.comp]
    rw [h2, hpin, List.map_map]
    have hid : ((fun p : TPin => (p.Port, p.Number)) ∘ fun x : Nat × Nat => TPin.mk x.1 x.2)
        = id := by
      funext x
      rfl
    rw [hid, List.map_id]
  · unfold PinList
    rw [Length_eq_length, MakePinList_length, List.length_map]
  · unfold PinList
    rw [hpin]
    intro hnd
    exact hdup (List.Nodup.of_map _ hnd)

/-- Witness of the amended C22 at the list naming bit 0 of `Porta` twice. -/
theorem PinList_define_accepts_witness :
    1 ≤ ([(Porta, 0), (Porta, 0)] : List (Nat × Nat)).length ∧
    ([(Porta, 0), (Porta, 0)] : List (Nat × Nat)).length ≤ 16 ∧
    (∀ x ∈ ([(Porta, 0), (Porta, 0)] : List (Nat × Nat)), x.2 < Port.Width) ∧
    ¬ ([(Porta, 0), (Porta, 0)] : List (Nat × Nat)).Nodup ∧
    (PinList.define [(Porta, 0), (Porta, 0)]
        = some (PinList ([(Porta, 0), (Porta, 0)].map (fun x => TPin.mk x.1 x.2))) ∧
      (PinList ([(Porta, 0), (Porta, 0)].map (fun x => TPin.mk x.1 x.2))).map
          (fun pw => (pw.Pin.Port, pw.Pin.Number))
        = [(Porta, 0), (Porta, 0)] ∧
      Length (PinList ([(Porta, 0), (Porta, 0)].map (fun x => TPin.mk x.1 x.2)))
        = ([(Porta, 0), (Porta, 0)] : List (Nat × Nat)).length ∧
      ¬ ((PinList ([(Porta, 0), (Porta, 0)].map (fun x => TPin.mk x.1 x.2))).map
          (fun pw => pw.Pin)).Nodup) :=
  ⟨by decide, by decide, by decide, by decide,
    PinList_define_accepts [(Porta, 0), (Porta, 0)] (by decide) (by decide) (by decide)
      (by decide)⟩

/-- C23 (bit index bound).  The pin class `TPin<PORT, PIN>` is defined if and
only if `PIN < PORT::Width`, and then it is the pin of that port and bit; so
every pin of every grouping that is defined has `Pin::Number` below
`Port::Width`. -/
theorem TPin_define_iff (PORT PIN : Nat) :
    ((∃ p, TPin.define PORT PIN = some p) ↔ PIN < Port.Width) ∧
    (∀ p, TPin.define PORT PIN = some p → p.Port = PORT ∧ p.Number = PIN) ∧
    (∀ (pairs : List (Nat × Nat)) (PINS : List PW), PinList.define pairs = some PINS →
      ∀ pw ∈ PINS, pw.Pin.Number < Port.Width) := by
  refine ⟨⟨?_, ?_⟩, ?_, ?_⟩
  · rintro ⟨p, hp⟩
    exact (TPin_define_some _ _ _ hp).2
  · intro h
    exact ⟨_, TPin_define_eq_some PORT PIN h⟩
  · intro p hp
    rw [(TPin_define_some _ _ _ hp).1]
    exact ⟨rfl, rfl⟩
  · intro pairs PINS h pw hpw
    unfold PinList.define at h
    split at h
    · cases hall : TPin.defineAll pairs with
      | none => rw [hall] at h; cases h
      | some ps =>
        rw [hall] at h
        simp only [Option.map_some', Option.some.injEq] at h
        subst h
        exact TPin_defineAll_some pairs ps hall pw.Pin (mem_PinList_Pin hpw)
    · cases h

/-- Witness of C23: the pin of bit 7 is defined, the pin of bit 8 is not, and
the pins of the defined grouping of bits 5 and 3 of `Porta` and bit 0 of
`Portb` are below the width. -/
theorem TPin_define_iff_witness :
    TPin.define Porta 7 = some Pa7 ∧ TPin.define Porta 8 = none ∧
    PinList.define [(Porta, 5), (Porta, 3), (Portb, 0)] = some (PinList [Pa5, Pa3, Pb0]) ∧
    (∀ pw ∈ PinList [Pa5, Pa3, Pb0], pw.Pin.Number < Port.Width) :=
  ⟨by decide, by decide, by decide,
    (TPin_define_iff Porta 7).2.2 [(Porta, 5), (Porta, 3), (Portb, 0)] _ (by decide)⟩

/-- C25 (last write wins).  For every grouping, every register state and every
two values `a` and `b`, `Write(a)` followed by `Write(b)` leaves the register
state of `Write(b)` alone; in particular `Write` is idempotent. -/
theorem Write_last_wins (PINS : List PW) (a b : Nat) (s : Regs) :
    PinSet.Write PINS b (PinSet.Write PINS a s) = PinSet.Write PINS b s ∧
    PinSet.Write PINS a (PinSet.Write PINS a s) = PinSet.Write PINS a s :=
  ⟨PortWriteIterator_Write_Write _ _ _ _ s, PortWriteIterator_Write_Write _ _ _ _ s⟩

end Pinlist

/-! ## Facts about the write transform on partitions with adjacent positions -/

namespace Pinlist

theorem and_one_shiftLeft_ne_zero (v p : Nat) :
    v &&& (1 <<< p) ≠ 0 ↔ v.testBit p = true := by
  constructor
  · intro h
    cases hv : v.testBit p
    · exfalso
      apply h
      apply Nat.eq_of_testBit_eq
      intro i
      rw [Nat.testBit_and, testBit_one_shiftLeft, Nat.zero_testBit]
      by_cases hi : p = i
      · subst hi; simp [hv]
      · simp [hi]
    · rfl
  · intro hv h0
    have : (v &&& (1 <<< p)).testBit p = true := by
      rw [Nat.testBit_and, testBit_one_shiftLeft, hv]; simp
    rw [h0, Nat.zero_testBit] at this
    cases this

/-- The contribution of the head pin in the per-bit path of `UppendValue`: bit
`Number` of the result is bit `Position` of the value, no other bit is set. -/
theorem head_contribution_testBit (a : PW) (v b : Nat) (hlt : a.Pin.Number < 8) :
    (if a.Position = a.Pin.Number then (0 ||| (v &&& (1 <<< a.Position))) % 256
      else if v &&& (1 <<< a.Position) ≠ 0 then (0 ||| (1 <<< a.Pin.Number)) % 256
      else 0).testBit b
      = (decide (a.Pin.Number = b) && v.testBit a.Position) := by
  by_cases hpos : a.Position = a.Pin.Number
  · rw [if_pos hpos]
    simp only [testBit_mod_256, Nat.testBit_or, Nat.testBit_and, Nat.zero_testBit,
      Bool.false_or, testBit_one_shiftLeft, hpos]
    by_cases hb : a.Pin.Number = b
    · subst hb; simp [hlt]
    · simp [hb]
  · rw [if_neg hpos]
    by_cases hv : v.testBit a.Position = true
    · rw [if_pos ((and_one_shiftLeft_ne_zero v a.Position).2 hv)]
      simp only [testBit_mod_256, Nat.testBit_or, Nat.zero_testBit, Bool.false_or,
        testBit_one_shiftLeft, hv]
      by_cases hb : a.Pin.Number = b
      · subst hb; simp [hlt]
      · simp [hb]
    · rw [if_neg (fun h => hv ((and_one_shiftLeft_ne_zero v a.Position).1 h))]
      simp only [Bool.not_eq_true] at hv
      simp [hv]

/-- In a list flagged by `IsSerial` whose positions are adjacent, the member
with bit number `Number(head) + j` sits at the position `Position(head) + j`. -/
theorem serial_adjacent_member (h : PW) (t : List PW) (hs : IsSerial.value (h :: t) = true)
    (hadj : (h :: t).Chain' (fun a b => b.Position = a.Position + 1)) :
    ∀ pw ∈ h :: t, ∃ j, pw.Pin.Number = h.Pin.Number + j ∧ pw.Position = h.Position + j := by
  induction t generalizing h with
  | nil =>
    intro pw hpw
    rw [List.mem_singleton] at hpw
    subst hpw
    exact ⟨0, rfl, rfl⟩
  | cons h2 t ih =>
    intro pw hpw
    rcases List.mem_cons.1 hpw with rfl | hmem
    · exact ⟨0, rfl, rfl⟩
    · obtain ⟨hnum, hs2⟩ := (IsSerial_value_cons_cons h h2 t).1 hs
      rw [List.chain'_cons] at hadj
      obtain ⟨j, hj1, hj2⟩ := ih h2 hs2 hadj.2 pw hmem
      have hp := hadj.1
      refine ⟨j + 1, ?_, ?_⟩
      · omega
      · omega

/-- On a partition with adjacent positions and distinct bit numbers below the
port width, `UppendValue` puts bit `Position` of the value at bit `Number` of
the result, for every member. -/
theorem UppendValue_adjacent (l : List PW) (v : Nat)
    (hadj : l.Chain' (fun a b => b.Position = a.Position + 1))
    (hnd : (l.map (fun pw => pw.Pin.Number)).Nodup)
    (hlt : ∀ pw ∈ l, pw.Pin.Number < Port.Width) :
    ∀ pw ∈ l, (PinWriteIterator.UppendValue l v).testBit pw.Pin.Number
      = v.testBit pw.Position := by
  induction l with
  | nil => intro pw hpw; cases hpw
  | cons a t ih =>
    intro pw hpw
    have hlt8 : pw.Pin.Number < 8 := hlt pw hpw
    have hmask : (GetPortMask (a :: t)).testBit pw.Pin.Number = true :=
      (testBit_GetPortMask _ _).2 ⟨pw, hpw, rfl⟩
    unfold PinWriteIterator.UppendValue
    by_cases hs : IsSerial.value (a :: t) = true
    · rw [if_pos hs]
      obtain ⟨j, hj1, hj2⟩ := serial_adjacent_member a t hs hadj pw hpw
      by_cases hgt : a.Position > a.Pin.Number
      · rw [if_pos hgt]
        simp only [testBit_mod_256, Nat.testBit_and, Nat.testBit_shiftRight, hmask, hlt8,
          decide_True, Bool.true_and, Bool.and_true]
        congr 1
        omega
      · rw [if_neg hgt]
        have h16 : pw.Pin.Number < 16 := by omega
        have hge : pw.Pin.Number ≥ a.Pin.Number - a.Position := by omega
        simp only [testBit_mod_256, testBit_mod_65536, Nat.testBit_and, Nat.testBit_shiftLeft,
          hmask, hlt8, h16, hge, decide_True, Bool.true_and, Bool.and_true]
        congr 1
        omega
    · rw [if_neg hs]
      have hnd' := List.nodup_cons.1 (by simpa using hnd :
        ((a.Pin.Number) :: t.map (fun pw => pw.Pin.Number)).Nodup)
      have hat : a.Pin.Number < 8 := hlt a (by simp)
      simp only [testBit_mod_256, Nat.testBit_or, head_contribution_testBit a v _ hat, hlt8,
        decide_True, Bool.true_and]
      rcases List.mem_cons.1 hpw with rfl | hmem
      · have htail : (PinWriteIterator.UppendValue t v).testBit pw.Pin.Number = false := by
          cases hr : (PinWriteIterator.UppendValue t v).testBit pw.Pin.Number
          · rfl
          · exfalso
            obtain ⟨q, hq, hqn⟩ := (testBit_GetPortMask _ _).1 (UppendValue_le_mask _ _ _ hr)
            exact hnd'.1 (List.mem_map.2 ⟨q, hq, hqn⟩)
        simp [htail]
      · have hne : a.Pin.Number ≠ pw.Pin.Number := by
          intro heq
          exact hnd'.1 (List.mem_map.2 ⟨pw, hmem, heq.symm⟩)
        have hih := ih (List.Chain'.tail hadj) hnd'.2
          (fun q hq => hlt q (List.mem_cons_of_mem _ hq)) pw hmem
        simp [hne, hih]

/-- After `Write`, a data bit inside the mask of its port holds the bit that
`UppendValue` computed for it. -/
theorem PortWriteIterator_Write_inside (ports : List Nat) (PINS : List PW) (value : Nat)
    (s : Regs) (P b : Nat) (hP : P ∈ ports) (hb : b < Port.Width)
    (hin : (GetPortMask (GetPinsWithPort PINS P)).testBit b = true) :
    ((PortWriteIterator.Write ports PINS value s).data P).testBit b
      = (PinWriteIterator.UppendValue (GetPinsWithPort PINS P) value).testBit b := by
  have hb8 : b < 8 := hb
  have hb16 : b < 16 := by omega
  rw [PortWriteIterator_Write_data, if_pos hP]
  split
  · simp [testBit_mod_256, hb8]
  · simp [testBit_mod_256, testBit_complement, hb8, hb16, hin]

theorem mem_PinList_of_lt (pins : List TPin) (i : Nat) (hi : i < pins.length) :
    PW.mk pins[i] i ∈ PinList pins := by
  have h := MakePinList_getElem? 0 pins i
  rw [List.getElem?_eq_getElem hi, Option.map_some', Nat.zero_add] at h
  exact List.getElem?_mem h

theorem mem_Ports_of_mem {PINS : List PW} {pw : PW} (h : pw ∈ PINS) :
    pw.Pin.Port ∈ PinSet.Ports PINS := by
  unfold PinSet.Ports
  rw [mem_NoDuplicates, GetPorts_eq_map]
  exact List.mem_map.2 ⟨pw, h, rfl⟩

theorem cast_testBit_of_lt_length (pins : List TPin) (hlen : pins.length ≤ 16) (v i : Nat)
    (hi : i < pins.length) :
    ((PinSet.DataType (PinList pins)).cast v).testBit i = v.testBit i := by
  have h2 : PinSet.Length (PinList pins) = pins.length := by
    unfold PinSet.Length PinList
    rw [Length_eq_length, MakePinList_length]
  rw [testBit_cast]
  unfold PinSet.DataType
  rw [h2]
  by_cases h8 : pins.length < 8
  · have : i < 8 := by omega
    simp [h8, SelectSize, CType.bits, this]
  · have : i < 16 := by omega
    simp [h8, SelectSize, CType.bits, this]

end Pinlist

/-! ## The claims on write correctness -/

namespace Pinlist

/-- C26 (write correctness for adjacent partitions).  For every well-formed
grouping in which the pins of each port occupy consecutive logical positions,
every value and every register state, after `Write(value)` the data bit of the
`i`-th pin equals bit `i` of the value, for every position `i` below `N`. -/
theorem Write_correct_of_adjacent (pins : List TPin) (hw : WellFormed pins)
    (hadj : ∀ P ∈ PinSet.Ports (PinList pins),
      (GetPinsWithPort (PinList pins) P).Chain' (fun a b => b.Position = a.Position + 1))
    (value : Nat) (s : Regs) (i : Nat) (hi : i < pins.length) :
    ((PinSet.Write (PinList pins) value s).data pins[i].Port).testBit pins[i].Number
      = value.testBit i := by
  have hmem := mem_PinList_of_lt pins i hi
  have hP : pins[i].Port ∈ PinSet.Ports (PinList pins) := mem_Ports_of_mem hmem
  have hpart : PW.mk pins[i] i ∈ GetPinsWithPort (PinList pins) pins[i].Port :=
    mem_GetPinsWithPort.2 ⟨hmem, rfl⟩
  unfold PinSet.Write
  rw [PortWriteIterator_Write_inside _ _ _ s _ _ hP (hw.partition_lt _ _ hpart)
    ((testBit_GetPortMask _ _).2 ⟨_, hpart, rfl⟩)]
  have h := UppendValue_adjacent _ ((PinSet.DataType (PinList pins)).cast value)
    (hadj _ hP) (hw.partition_nodup _) (hw.partition_lt _) _ hpart
  rw [h]
  exact cast_testBit_of_lt_length pins hw.2.1 value i hi

/-- Witness of C26 at `PinList<Pa1, Pa2, Pb0>`, value `0b101`, position 2 (the
pin `Pb0`). -/
theorem Write_correct_of_adjacent_witness :
    WellFormed [Pa1, Pa2, Pb0] ∧
    (∀ P ∈ PinSet.Ports (PinList [Pa1, Pa2, Pb0]),
      (GetPinsWithPort (PinList [Pa1, Pa2, Pb0]) P).Chain'
        (fun a b => b.Position = a.Position + 1)) ∧
    ((PinSet.Write (PinList [Pa1, Pa2, Pb0]) 5 sampleRegs).data Portb).testBit 0
      = (5 : Nat).testBit 2 :=
  ⟨by decide,
    by simp [PinSet.Ports, PinList, MakePinList, GetPorts, NoDuplicates, Erase,
      GetPinsWithPort, Pa1, Pa2, Pb0, Porta, Portb],
    Write_correct_of_adjacent [Pa1, Pa2, Pb0] (by decide)
      (by simp [PinSet.Ports, PinList, MakePinList, GetPorts, NoDuplicates, Erase,
        GetPinsWithPort, Pa1, Pa2, Pb0, Porta, Portb])
      5 sampleRegs 2 (by decide)⟩

end Pinlist

/-! ## Facts about the write of `ports.h` -/

namespace Ports

open Pinlist

theorem GetMask_eq_GetPortMask (l : List PW) : GetMask l = GetPortMask l := by
  induction l with
  | nil => rfl
  | cons a t ih => simp [GetMask, GetPortMask, ih]

theorem testBit_lt_of_lt_256 (r b : Nat) (hr : r < 256) (h : r.testBit b = true) : b < 8 := by
  by_contra hb
  have hle : 2 ^ 8 ≤ 2 ^ b := Nat.pow_le_pow_right (by decide) (by omega)
  have hlt : r < 2 ^ b := Nat.lt_of_lt_of_le hr hle
  rw [Nat.testBit_lt_two_pow hlt] at h
  cases h

/-- One step of the per-bit transform of `ports.h` adds to the accumulated
byte the bit `Number` when bit `Position` of the value is set. -/
theorem legacy_UppendValue_step (a : PW) (v r b : Nat) (hr : r < 256) (hlt : a.Pin.Number < 8) :
    ((if a.Position = a.Pin.Number then (r ||| (v &&& (1 <<< a.Position))) % 256
      else if v &&& (1 <<< a.Position) ≠ 0 then (r ||| (1 <<< a.Pin.Number)) % 256
      else r).testBit b
      = (r.testBit b || (decide (a.Pin.Number = b) && v.testBit a.Position))) ∧
    (if a.Position = a.Pin.Number then (r ||| (v &&& (1 <<< a.Position))) % 256
      else if v &&& (1 <<< a.Position) ≠ 0 then (r ||| (1 <<< a.Pin.Number)) % 256
      else r) < 256 := by
  have hrb : r.testBit b = true → b < 8 := testBit_lt_of_lt_256 r b hr
  by_cases hpos : a.Position = a.Pin.Number
  · rw [if_pos hpos]
    refine ⟨?_, Nat.mod_lt _ (by decide)⟩
    simp only [testBit_mod_256, Nat.testBit_or, Nat.testBit_and, testBit_one_shiftLeft, hpos]
    by_cases hb : a.Pin.Number = b
    · subst hb; simp [hlt]
    · cases hrt : r.testBit b
      · simp [hb]
      · simp [hb, hrb hrt]
  · rw [if_neg hpos]
    by_cases hv : v.testBit a.Position = true
    · rw [if_pos ((and_one_shiftLeft_ne_zero v a.Position).2 hv)]
      refine ⟨?_, Nat.mod_lt _ (by decide)⟩
      simp only [testBit_mod_256, Nat.testBit_or, testBit_one_shiftLeft, hv]
      by_cases hb : a.Pin.Number = b
      · subst hb; simp [hlt]
      · cases hrt : r.testBit b
        · simp [hb]
        · simp [hb, hrb hrt]
    · rw [if_neg (fun h => hv ((and_one_shiftLeft_ne_zero v a.Position).1 h))]
      simp only [Bool.not_eq_true] at hv
      exact ⟨by simp [hv], hr⟩

theorem legacy_UppendValue_testBit (l : List PW) (v r b : Nat) (hr : r < 256)
    (hlt : ∀ pw ∈ l, pw.Pin.Number < 8) :
    (PinWriteIterator.UppendValue l v r).testBit b
      = (r.testBit b || l.any (fun pw => decide (pw.Pin.Number = b) && v.testBit pw.Position)) := by
  induction l generalizing r with
  | nil => simp [PinWriteIterator.UppendValue]
  | cons a t ih =>
    obtain ⟨h1, h2⟩ := legacy_UppendValue_step a v r b hr (hlt a (by simp))
    simp only [PinWriteIterator.UppendValue]
    rw [ih _ h2 (fun pw hpw => hlt pw (List.mem_cons_of_mem _ hpw)), h1]
    simp [Bool.or_assoc]

/-- On a partition with distinct bit numbers below the port width, the per-bit
transform puts bit `Position` of the value at bit `Number` of the result, for
every member, and sets no bit outside the mask. -/
theorem legacy_UppendValue_member (l : List PW) (v : Nat)
    (hnd : (l.map (fun pw => pw.Pin.Number)).Nodup)
    (hlt : ∀ pw ∈ l, pw.Pin.Number < 8) (pw : PW) (hpw : pw ∈ l) :
    (PinWriteIterator.UppendValue l v 0).testBit pw.Pin.Number = v.testBit pw.Position := by
  rw [legacy_UppendValue_testBit l v 0 _ (by decide) hlt, Nat.zero_testBit, Bool.false_or]
  cases hv : v.testBit pw.Position
  · rw [List.any_eq_false]
    intro q hq
    by_cases hn : q.Pin.Number = pw.Pin.Number
    · have : q = pw := List.inj_on_of_nodup_map hnd hq hpw hn
      subst this
      simp [hv]
    · simp [hn]
  · rw [List.any_eq_true]
    exact ⟨pw, hpw, by simp [hv]⟩

theorem legacy_UppendValue_le_mask (l : List PW) (v b : Nat) (hlt : ∀ pw ∈ l, pw.Pin.Number < 8)
    (h : (PinWriteIterator.UppendValue l v 0).testBit b = true) :
    (GetMask l).testBit b = true := by
  rw [legacy_UppendValue_testBit l v 0 _ (by decide) hlt, Nat.zero_testBit, Bool.false_or,
    List.any_eq_true] at h
  obtain ⟨q, hq, hqb⟩ := h
  rw [GetMask_eq_GetPortMask, testBit_GetPortMask]
  simp only [Bool.and_eq_true, decide_eq_true_eq] at hqb
  exact ⟨q, hq, hqb.1⟩

end Ports

namespace Ports

open Pinlist

/-- The single-pin step changes the data register of the pin's port at the
bit of the pin alone, so the part of the register outside a mask holding that
bit is as before. -/
theorem SetVal_outside (p : TPin) (val : Nat) (s : Regs) (M : Nat)
    (hM : M.testBit p.Number = true) :
    (p.SetVal val s).data p.Port % 256 &&& complement M
      = s.data p.Port % 256 &&& complement M := by
  apply Nat.eq_of_testBit_eq
  intro b
  unfold TPin.SetVal TPin.Set TPin.Clear
  split
  · simp only [Function.update_same, Nat.mod_mod, Nat.testBit_and, testBit_mod_256,
      Nat.testBit_or, testBit_one_shiftLeft, testBit_complement]
    by_cases hb : p.Number = b
    · subst hb; simp [hM]
    · simp [hb]
  · simp only [Function.update_same, Nat.mod_mod, Nat.testBit_and, testBit_mod_256,
      testBit_one_shiftLeft, testBit_complement]
    by_cases hb : p.Number = b
    · subst hb; simp [hM]
    · by_cases h8 : b < 8
      · have h16 : b < 16 := by omega
        simp [hb, h8, h16]
      · simp [h8]

theorem SetVal_frame (p : TPin) (val : Nat) (s : Regs) :
    (p.SetVal val s).dir = s.dir ∧ (p.SetVal val s).pin = s.pin ∧
    ∀ x, Function.update (p.SetVal val s).data p.Port x = Function.update s.data p.Port x := by
  unfold TPin.SetVal TPin.Set TPin.Clear
  split <;> simp

/-- The single-pin step of the write of `ports.h` does not alter the state the
write leaves. -/
theorem Write_eq_WriteMergeOnly (ports : List Nat) (PINS : List PW) (value : Nat) (s : Regs) :
    PortWriteIterator.Write ports PINS value s
      = PortWriteIterator.WriteMergeOnly ports PINS value s := by
  induction ports generalizing s with
  | nil => rfl
  | cons Head Tail ih =>
    simp only [PortWriteIterator.Write, PortWriteIterator.WriteMergeOnly]
    rw [ih]
    congr 1
    by_cases hlen : Length (GetPinsWithPort PINS Head) = 1
    · rw [if_pos hlen]
      cases hp : GetPinsWithPort PINS Head with
      | nil => rfl
      | cons h t =>
        have hmem : h ∈ GetPinsWithPort PINS Head := by rw [hp]; simp
        have hport : h.Pin.Port = Head := (mem_GetPinsWithPort.1 hmem).2
        have hM : (GetMask (h :: t)).testBit h.Pin.Number = true := by
          rw [GetMask_eq_GetPortMask, testBit_GetPortMask]
          exact ⟨h, by simp, rfl⟩
        obtain ⟨hdir, hpin, hupd⟩ := SetVal_frame h.Pin (value &&& h.Position) s
        have hout := SetVal_outside h.Pin (value &&& h.Position) s _ hM
        rw [hport] at hout hupd
        simp only
        apply Pinlist.Regs_ext
        · simp only [hout, hupd]
        · exact hdir
        · exact hpin
    · rw [if_neg hlen]

/-- The byte that the write of `ports.h` without the single-pin step leaves in
the data register of a port. -/
theorem WriteMergeOnly_data (ports : List Nat) (PINS : List PW) (value : Nat)
    (s : Regs) (P : Nat) :
    (PortWriteIterator.WriteMergeOnly ports PINS value s).data P =
      if P ∈ ports then
        ((s.data P % 256 &&& complement (GetMask (GetPinsWithPort PINS P)))
          ||| PinWriteIterator.UppendValue (GetPinsWithPort PINS P) value 0) % 256
      else s.data P := by
  induction ports generalizing s with
  | nil => simp [PortWriteIterator.WriteMergeOnly]
  | cons Head Tail ih =>
    simp only [PortWriteIterator.WriteMergeOnly]
    rw [ih]
    by_cases hP : P = Head
    · subst hP
      by_cases hT : P ∈ Tail
      · simp only [hT, if_true, List.mem_cons, true_or, Function.update_same]
        exact merge_idem _ _ _
      · simp [hT]
    · have hne : (P ∈ Head :: Tail) ↔ P ∈ Tail := by simp [hP]
      simp only [hne, Function.update_noteq hP]

end Ports

namespace Ports

open Pinlist

/-- C27 (legacy write correctness).  For every well-formed grouping built by
the `PinList` of `ports.h`, every value of the argument type and every register
state, after the `PinSet::Write(value)` of `ports.h` the data bit of the
`i`-th pin equals bit `i` of the value for every position `i` below `N`, every
data bit outside the partition masks is as it was, and the state is the one
the merge alone leaves: the step `Pin::Set(value & Position)` taken for a
partition of length 1 does not alter it. -/
theorem legacy_Write_correct (DATA_T : CType) (pins : List TPin) (hw : WellFormed pins)
    (value : Nat) (hv : value < 2 ^ DATA_T.bits) (s : Regs) :
    (∀ (i : Nat) (hi : i < pins.length),
      ((PinSet.Write DATA_T (PinList pins) value s).data pins[i].Port).testBit pins[i].Number
        = value.testBit i) ∧
    (∀ P b, b < Port.Width → (GetMask (GetPinsWithPort (PinList pins) P)).testBit b = false →
      ((PinSet.Write DATA_T (PinList pins) value s).data P).testBit b = (s.data P).testBit b) ∧
    PinSet.Write DATA_T (PinList pins) value s
      = PinSet.WriteMergeOnly DATA_T (PinList pins) value s := by
  have hcast : DATA_T.cast value = value := Nat.mod_eq_of_lt hv
  have hdata : ∀ P, (PinSet.Write DATA_T (PinList pins) value s).data P
      = if P ∈ NoDuplicates (GetPorts (PinList pins)) then
          ((s.data P % 256 &&& complement (GetMask (GetPinsWithPort (PinList pins) P)))
            ||| PinWriteIterator.UppendValue (GetPinsWithPort (PinList pins) P) value 0) % 256
        else s.data P := by
    intro P
    unfold PinSet.Write
    rw [Write_eq_WriteMergeOnly, WriteMergeOnly_data, hcast]
  refine ⟨fun i hi => ?_, fun P b hb hout => ?_, ?_⟩
  · have hmem := mem_PinList_of_lt pins i hi
    have hP : pins[i].Port ∈ NoDuplicates (GetPorts (PinList pins)) := mem_Ports_of_mem hmem
    have hpart : PW.mk pins[i] i ∈ GetPinsWithPort (PinList pins) pins[i].Port :=
      mem_GetPinsWithPort.2 ⟨hmem, rfl⟩
    have h8 : pins[i].Number < 8 := hw.partition_lt _ _ hpart
    have h16 : pins[i].Number < 16 := by omega
    have hmask : (GetMask (GetPinsWithPort (PinList pins) pins[i].Port)).testBit pins[i].Number
        = true := by
      rw [GetMask_eq_GetPortMask, testBit_GetPortMask]
      exact ⟨_, hpart, rfl⟩
    have hbit := legacy_UppendValue_member _ value (hw.partition_nodup pins[i].Port)
      (hw.partition_lt pins[i].Port) _ hpart
    rw [hdata, if_pos hP]
    simp only [testBit_mod_256, Nat.testBit_or, Nat.testBit_and, testBit_complement, hmask,
      h8, h16]
    simpa using hbit
  · have hb8 : b < 8 := hb
    have hb16 : b < 16 := by omega
    have hres : (PinWriteIterator.UppendValue (GetPinsWithPort (PinList pins) P) value 0).testBit b
        = false := by
      cases hr : (PinWriteIterator.UppendValue (GetPinsWithPort (PinList pins) P) value 0).testBit b
      · rfl
      · rw [legacy_UppendValue_le_mask _ _ _ (hw.partition_lt P) hr] at hout; cases hout
    rw [hdata]
    split
    · simp [testBit_mod_256, testBit_complement, hb8, hb16, hout, hres]
    · rfl
  · unfold PinSet.Write PinSet.WriteMergeOnly
    exact Write_eq_WriteMergeOnly _ _ _ s

/-- Witness of C27 at `PinList<Pa5, Pb0>`, whose two partitions have length 1,
with the value `0b10` of type `unsigned char`. -/
theorem legacy_Write_correct_witness :
    WellFormed [Pa5, Pb0] ∧ 2 < 2 ^ CType.unsignedChar.bits ∧
    ((∀ (i : Nat) (hi : i < [Pa5, Pb0].length),
      ((PinSet.Write CType.unsignedChar (PinList [Pa5, Pb0]) 2 sampleRegs).data
          [Pa5, Pb0][i].Port).testBit [Pa5, Pb0][i].Number
        = (2 : Nat).testBit i) ∧
    (∀ P b, b < Port.Width → (GetMask (GetPinsWithPort (PinList [Pa5, Pb0]) P)).testBit b = false →
      ((PinSet.Write CType.unsignedChar (PinList [Pa5, Pb0]) 2 sampleRegs).data P).testBit b
        = (sampleRegs.data P).testBit b) ∧
    PinSet.Write CType.unsignedChar (PinList [Pa5, Pb0]) 2 sampleRegs
      = PinSet.WriteMergeOnly CType.unsignedChar (PinList [Pa5, Pb0]) 2 sampleRegs) :=
  ⟨by decide, by decide,
    legacy_Write_correct CType.unsignedChar [Pa5, Pb0] (by decide) 2 (by decide) sampleRegs⟩

end Ports

/-! ## Facts about identity-mapped groupings -/

namespace Pinlist

theorem GetPortMask_testBit_lt (l : List PW) (hlt : ∀ pw ∈ l, pw.Pin.Number < 8) (b : Nat)
    (h : (GetPortMask l).testBit b = true) : b < 8 := by
  obtain ⟨pw, hpw, rfl⟩ := (testBit_GetPortMask l b).1 h
  exact hlt pw hpw

/-- On a partition whose members all have `Position = Number`, `UppendValue`
keeps the bits of the value that lie in the port mask. -/
theorem UppendValue_identity (l : List PW) (v : Nat)
    (hid : ∀ pw ∈ l, pw.Position = pw.Pin.Number) (hlt : ∀ pw ∈ l, pw.Pin.Number < 8)
    (b : Nat) :
    (PinWriteIterator.UppendValue l v).testBit b = ((GetPortMask l).testBit b && v.testBit b) := by
  induction l with
  | nil => simp [PinWriteIterator.UppendValue, GetPortMask]
  | cons a t ih =>
    have ha := hid a (by simp)
    have hat : a.Pin.Number < 8 := hlt a (by simp)
    have hlt' : ∀ pw ∈ t, pw.Pin.Number < 8 := fun pw hpw => hlt pw (List.mem_cons_of_mem _ hpw)
    have iht := ih (fun pw hpw => hid pw (List.mem_cons_of_mem _ hpw)) hlt'
    unfold PinWriteIterator.UppendValue
    by_cases hs : IsSerial.value (a :: t) = true
    · rw [if_pos hs, if_neg (by omega)]
      simp only [testBit_mod_256, testBit_mod_65536, Nat.testBit_and, Nat.testBit_shiftLeft, ha,
        Nat.sub_self, Nat.sub_zero]
      cases hm : (GetPortMask (a :: t)).testBit b
      · simp
      · have h8 := GetPortMask_testBit_lt _ hlt b hm
        have h16 : b < 16 := by omega
        simp [h8, h16]
    · rw [if_neg hs]
      simp only [testBit_mod_256, Nat.testBit_or, head_contribution_testBit a v b hat, iht,
        GetPortMask, testBit_one_shiftLeft]
      rw [ha]
      by_cases hb : a.Pin.Number = b
      · subst hb; simp [hat]
      · cases hm : (GetPortMask t).testBit b
        · simp [hb]
        · have h8 := GetPortMask_testBit_lt _ hlt' b hm
          simp [hb, h8]

/-- On a partition whose members all have `Position = Number`, `UppendReadValue`
keeps the bits of the port value that lie in the value mask. -/
theorem UppendReadValue_identity (DataType : CType) (l : List PW) (portValue : Nat)
    (hid : ∀ pw ∈ l, pw.Position = pw.Pin.Number)
    (hbits : ∀ pw ∈ l, pw.Position < DataType.bits) (hlt : ∀ pw ∈ l, pw.Pin.Number < 8)
    (b : Nat) :
    (PinWriteIterator.UppendReadValue DataType l portValue).testBit b
      = ((GetValueMask l).testBit b && portValue.testBit b) := by
  induction l with
  | nil => simp [PinWriteIterator.UppendReadValue, GetValueMask]
  | cons a t ih =>
    have ha := hid a (by simp)
    have hab : a.Position < DataType.bits := hbits a (by simp)
    have iht := ih (fun pw hpw => hid pw (List.mem_cons_of_mem _ hpw))
      (fun pw hpw => hbits pw (List.mem_cons_of_mem _ hpw))
      (fun pw hpw => hlt pw (List.mem_cons_of_mem _ hpw))
    have hvm : ∀ l' : List PW, (∀ pw ∈ l', pw.Position < DataType.bits) →
        (∀ pw ∈ l', pw.Position = pw.Pin.Number) → (∀ pw ∈ l', pw.Pin.Number < 8) →
        (GetValueMask l').testBit b = true → b < DataType.bits ∧ b < 16 := by
      intro l' h1 h2 h3 hm
      obtain ⟨pw, hpw, rfl⟩ := (testBit_GetValueMask l' _).1 hm
      have := h2 pw hpw
      have := h3 pw hpw
      exact ⟨h1 pw hpw, by omega⟩
    unfold PinWriteIterator.UppendReadValue
    by_cases hs : IsSerial.value (a :: t) = true
    · rw [if_pos hs, if_neg (by omega)]
      simp only [testBit_cast, testBit_mod_65536, Nat.testBit_and, Nat.testBit_shiftLeft, ha,
        Nat.sub_self, Nat.sub_zero]
      cases hm : (GetValueMask (a :: t)).testBit b
      · simp
      · obtain ⟨h1, h2⟩ := hvm (a :: t) hbits hid hlt hm
        simp [h1, h2]
    · rw [if_neg hs, if_pos ha]
      simp only [testBit_cast, Nat.testBit_or, Nat.testBit_and, Nat.zero_testBit, Bool.false_or,
        iht, GetValueMask, testBit_one_shiftLeft]
      by_cases hb : a.Position = b
      · subst hb; simp [hab]
      · cases hm : (GetValueMask t).testBit b
        · simp [hb]
        · obtain ⟨h1, _⟩ := hvm t (fun pw hpw => hbits pw (List.mem_cons_of_mem _ hpw))
            (fun pw hpw => hid pw (List.mem_cons_of_mem _ hpw))
            (fun pw hpw => hlt pw (List.mem_cons_of_mem _ hpw)) hm
          simp [hb, h1]

theorem OutRead_testBit (DataType : CType) (ports : List Nat) (PINS : List PW) (s : Regs)
    (b : Nat) :
    (PortWriteIterator.OutRead DataType ports PINS s).testBit b
      = (decide (b < DataType.bits) && ports.any (fun P =>
          (PinWriteIterator.UppendReadValue DataType (GetPinsWithPort PINS P)
            (Port.Read P s)).testBit b)) := by
  induction ports with
  | nil => simp [PortWriteIterator.OutRead]
  | cons Head Tail ih =>
    simp only [PortWriteIterator.OutRead, testBit_cast, Nat.testBit_or, ih, List.any_cons]
    cases decide (b < DataType.bits) <;> simp

theorem mem_PinList_index (pins : List TPin) (pw : PW) (h : pw ∈ PinList pins) :
    ∃ (j : Nat) (hj : j < pins.length), pw = PW.mk pins[j] j := by
  obtain ⟨j, hj⟩ := List.mem_iff_getElem?.1 h
  unfold PinList at hj
  rw [MakePinList_getElem?] at hj
  by_cases hlt : j < pins.length
  · rw [List.getElem?_eq_getElem hlt, Option.map_some', Nat.zero_add] at hj
    exact ⟨j, hlt, (Option.some.inj hj).symm⟩
  · rw [List.getElem?_eq_none (by omega)] at hj
    cases hj

theorem Position_lt_bits (pins : List TPin) (hlen : pins.length ≤ 16) (pw : PW)
    (h : pw ∈ PinList pins) : pw.Position < (PinSet.DataType (PinList pins)).bits := by
  have h1 := (MakePinList_Position_lt 0 pins pw h).2
  have h2 : PinSet.Length (PinList pins) = pins.length := by
    unfold PinSet.Length PinList
    rw [Length_eq_length, MakePinList_length]
  unfold PinSet.DataType
  rw [h2]
  by_cases h8 : pins.length < 8
  · simp only [h8, decide_True, SelectSize, CType.bits]; omega
  · simp only [h8, decide_False, SelectSize, CType.bits]; omega

end Pinlist

namespace Pinlist

/-- On an identity-mapped well-formed grouping, bit `i` of `Read()` is the data
bit of the `i`-th pin. -/
theorem Read_identity_bit (pins : List TPin) (hw : WellFormed pins)
    (hid : ∀ pw ∈ PinList pins, pw.Position = pw.Pin.Number) (s : Regs) (i : Nat)
    (hi : i < pins.length) :
    (PinSet.Read (PinList pins) s).testBit i
      = (s.data pins[i].Port).testBit pins[i].Number := by
  have hmem := mem_PinList_of_lt pins i hi
  have hnum : pins[i].Number = i := (hid _ hmem).symm
  have hi8 : i < 8 := by
    have := hw.2.2.2 pins[i] (List.getElem_mem hi)
    rw [hnum] at this
    exact this
  have hbit : i < (PinSet.DataType (PinList pins)).bits := Position_lt_bits pins hw.2.1 _ hmem
  have hread : ∀ P, (PinWriteIterator.UppendReadValue (PinSet.DataType (PinList pins))
      (GetPinsWithPort (PinList pins) P) (Port.Read P s)).testBit i
      = ((GetValueMask (GetPinsWithPort (PinList pins) P)).testBit i
          && (Port.Read P s).testBit i) := by
    intro P
    exact UppendReadValue_identity _ _ _
      (fun pw hpw => hid pw (mem_GetPinsWithPort.1 hpw).1)
      (fun pw hpw => Position_lt_bits pins hw.2.1 pw (mem_GetPinsWithPort.1 hpw).1)
      (hw.partition_lt P) i
  unfold PinSet.Read
  rw [OutRead_testBit, hnum]
  simp only [hbit, decide_True, Bool.true_and, hread]
  rw [Bool.eq_iff_iff, List.any_eq_true]
  constructor
  · rintro ⟨P, _, hP⟩
    simp only [Bool.and_eq_true] at hP
    obtain ⟨pw, hpw, hpos⟩ := (testBit_GetValueMask _ _).1 hP.1
    obtain ⟨hin, hport⟩ := mem_GetPinsWithPort.1 hpw
    obtain ⟨j, hj, rfl⟩ := mem_PinList_index pins pw hin
    simp only at hpos hport
    subst hpos
    rw [hport]
    have h2 := hP.2
    simp only [Port.Read, testBit_mod_256, Bool.and_eq_true] at h2
    exact h2.2
  · intro hdata
    refine ⟨pins[i].Port, mem_Ports_of_mem hmem, ?_⟩
    simp only [Bool.and_eq_true]
    refine ⟨(testBit_GetValueMask _ _).2 ⟨_, mem_GetPinsWithPort.2 ⟨hmem, rfl⟩, rfl⟩, ?_⟩
    simp [Port.Read, testBit_mod_256, hi8, hdata]

/-- On an identity-mapped well-formed grouping, `Write` puts bit `i` of the
value into the data bit of the `i`-th pin. -/
theorem Write_identity_bit (pins : List TPin) (hw : WellFormed pins)
    (hid : ∀ pw ∈ PinList pins, pw.Position = pw.Pin.Number) (value : Nat) (s : Regs) (i : Nat)
    (hi : i < pins.length) :
    ((PinSet.Write (PinList pins) value s).data pins[i].Port).testBit pins[i].Number
      = value.testBit i := by
  have hmem := mem_PinList_of_lt pins i hi
  have hnum : pins[i].Number = i := (hid _ hmem).symm
  have hP : pins[i].Port ∈ PinSet.Ports (PinList pins) := mem_Ports_of_mem hmem
  have hpart : PW.mk pins[i] i ∈ GetPinsWithPort (PinList pins) pins[i].Port :=
    mem_GetPinsWithPort.2 ⟨hmem, rfl⟩
  have hmask : (GetPortMask (GetPinsWithPort (PinList pins) pins[i].Port)).testBit pins[i].Number
      = true := (testBit_GetPortMask _ _).2 ⟨_, hpart, rfl⟩
  unfold PinSet.Write
  rw [PortWriteIterator_Write_inside _ _ _ s _ _ hP (hw.partition_lt _ _ hpart) hmask,
    UppendValue_identity _ _ (fun pw hpw => hid pw (mem_GetPinsWithPort.1 hpw).1)
      (hw.partition_lt _), hmask, Bool.true_and, hnum]
  exact cast_testBit_of_lt_length pins hw.2.1 value i hi

/-- C28 (identity-mapped round trip).  For every well-formed grouping in which
the logical `Position` of every pin equals its `Pin::Number` and every register
state: `Read()` after `Write(v)` returns `v` for every value `v` with only bits
below `N` set, and bit `i` of `Read()` is the data bit of the `i`-th pin for
every position `i` below `N`. -/
theorem identity_mapped_round_trip (pins : List TPin) (hw : WellFormed pins)
    (hid : ∀ pw ∈ PinList pins, pw.Position = pw.Pin.Number) (s : Regs) :
    (∀ v, v < 2 ^ pins.length →
      PinSet.Read (PinList pins) (PinSet.Write (PinList pins) v s) = v) ∧
    (∀ (i : Nat) (hi : i < pins.length),
      (PinSet.Read (PinList pins) s).testBit i
        = (s.data pins[i].Port).testBit pins[i].Number) := by
  refine ⟨fun v hv => ?_, fun i hi => Read_identity_bit pins hw hid s i hi⟩
  apply Nat.eq_of_testBit_eq
  intro b
  by_cases hb : b < pins.length
  · rw [Read_identity_bit pins hw hid _ b hb, Write_identity_bit pins hw hid v s b hb]
  · have hvb : v.testBit b = false :=
      Nat.testBit_lt_two_pow (Nat.lt_of_lt_of_le hv (Nat.pow_le_pow_right (by decide) (by omega)))
    rw [hvb]
    cases hr : (PinSet.Read (PinList pins) (PinSet.Write (PinList pins) v s)).testBit b
    · rfl
    · exfalso
      obtain ⟨pw, hpw, hpos⟩ := OutRead_bits _ _ _ _ _ hr
      have := (MakePinList_Position_lt 0 pins pw hpw).2
      omega

/-- Witness of C28 at `PinList<Pa0, Pb1, Pa2>`, whose pins sit at the positions
of their bit numbers on two ports. -/
theorem identity_mapped_round_trip_witness :
    WellFormed [Pa0, Pb1, Pa2] ∧
    (∀ pw ∈ PinList [Pa0, Pb1, Pa2], pw.Position = pw.Pin.Number) ∧
    ((∀ v, v < 2 ^ [Pa0, Pb1, Pa2].length →
      PinSet.Read (PinList [Pa0, Pb1, Pa2]) (PinSet.Write (PinList [Pa0, Pb1, Pa2]) v sampleRegs)
        = v) ∧
    (∀ (i : Nat) (hi : i < [Pa0, Pb1, Pa2].length),
      (PinSet.Read (PinList [Pa0, Pb1, Pa2]) sampleRegs).testBit i
        = (sampleRegs.data [Pa0, Pb1, Pa2][i].Port).testBit [Pa0, Pb1, Pa2][i].Number)) :=
  ⟨by decide, by decide,
    identity_mapped_round_trip [Pa0, Pb1, Pa2] (by decide) (by decide) sampleRegs⟩

end Pinlist

/-! ## The full-width shortcut of `Write` -/

namespace Pinlist

/-- A recorded `Port::Read()` of a port comes from the read-modify-write
branch: the port is in the port list and its partition is not as long as the
port is wide. -/
theorem WriteAccesses_read_mem (ports : List Nat) (PINS : List PW) (value : Nat) (s : Regs)
    (Q : Nat) (h : Access.read Q ∈ PortWriteIterator.WriteAccesses ports PINS value s) :
    Q ∈ ports ∧ Length (GetPinsWithPort PINS Q) ≠ Port.Width := by
  induction ports generalizing s with
  | nil => simp [PortWriteIterator.WriteAccesses] at h
  | cons Head Tail ih =>
    simp only [PortWriteIterator.WriteAccesses] at h
    split at h
    · rcases List.mem_cons.1 h with h | h
      · cases h
      · obtain ⟨h1, h2⟩ := ih _ h
        exact ⟨List.mem_cons_of_mem _ h1, h2⟩
    · rename_i hlen
      rcases List.mem_cons.1 h with h | h
      · cases h
        exact ⟨by simp, hlen⟩
      · rcases List.mem_cons.1 h with h | h
        · cases h
        · obtain ⟨h1, h2⟩ := ih _ h
          exact ⟨List.mem_cons_of_mem _ h1, h2⟩

/-- For a port of the port list whose partition is as long as the port is
wide, `Write` records the direct store of the value computed for the port. -/
theorem WriteAccesses_write_mem (ports : List Nat) (PINS : List PW) (value : Nat) (s : Regs)
    (P : Nat) (hP : P ∈ ports) (hlen : Length (GetPinsWithPort PINS P) = Port.Width) :
    Access.write P (PinWriteIterator.UppendValue (GetPinsWithPort PINS P) value % 256)
      ∈ PortWriteIterator.WriteAccesses ports PINS value s := by
  induction ports generalizing s with
  | nil => cases hP
  | cons Head Tail ih =>
    simp only [PortWriteIterator.WriteAccesses]
    by_cases hH : Head = P
    · subst hH
      rw [if_pos hlen]
      exact List.mem_cons_self _ _
    · have hT : P ∈ Tail := by
        rcases List.mem_cons.1 hP with h | h
        · exact absurd h.symm hH
        · exact h
      split
      · exact List.mem_cons_of_mem _ (ih _ hT)
      · exact List.mem_cons_of_mem _ (List.mem_cons_of_mem _ (ih _ hT))

/-- C24 (full-width shortcut).  For every partition of a well-formed grouping
whose `Length` equals `Port::Width`, every value and every prior register
content: `Write` takes the direct `Port::Write(result)` for that port and makes
no `Port::Read()` of it, the byte `Write` leaves in the data register is the
byte of `result`, and it is the byte that the read-modify-write
`Port::Write((Port::Read() & ~Mask) | result)` stores. -/
theorem Write_full_width_shortcut (pins : List TPin) (hw : WellFormed pins) (P : Nat)
    (hlen : Length (GetPinsWithPort (PinList pins) P) = Port.Width) (value : Nat) (s : Regs) :
    Access.write P (PinWriteIterator.UppendValue (GetPinsWithPort (PinList pins) P)
        ((PinSet.DataType (PinList pins)).cast value) % 256)
      ∈ PinSet.WriteAccesses (PinList pins) value s ∧
    Access.read P ∉ PinSet.WriteAccesses (PinList pins) value s ∧
    (PinSet.Write (PinList pins) value s).data P
      = PinWriteIterator.UppendValue (GetPinsWithPort (PinList pins) P)
          ((PinSet.DataType (PinList pins)).cast value) % 256 ∧
    (PinSet.Write (PinList pins) value s).data P
      = (Port.Write P
          ((Port.Read P s &&& complement (GetPortMask (GetPinsWithPort (PinList pins) P)))
            ||| PinWriteIterator.UppendValue (GetPinsWithPort (PinList pins) P)
              ((PinSet.DataType (PinList pins)).cast value)) s).data P := by
  have hP : P ∈ PinSet.Ports (PinList pins) := by
    cases hp : GetPinsWithPort (PinList pins) P with
    | nil =>
      rw [hp] at hlen
      exact absurd hlen (by decide)
    | cons h t =>
      have hmem : h ∈ GetPinsWithPort (PinList pins) P := by rw [hp]; simp
      obtain ⟨hin, hport⟩ := mem_GetPinsWithPort.1 hmem
      rw [← hport]
      exact mem_Ports_of_mem hin
  have hdata : (PinSet.Write (PinList pins) value s).data P
      = PinWriteIterator.UppendValue (GetPinsWithPort (PinList pins) P)
          ((PinSet.DataType (PinList pins)).cast value) % 256 := by
    unfold PinSet.Write
    rw [PortWriteIterator_Write_data, if_pos hP, if_pos hlen]
  refine ⟨WriteAccesses_write_mem _ _ _ s P hP hlen, ?_, hdata, ?_⟩
  · intro hread
    exact (WriteAccesses_read_mem _ _ _ s P hread).2 hlen
  · rw [hdata]
    simp only [Port.Write, Port.Read, Function.update_same]
    exact (full_mask_merge _ _ _
      (fun b hb => GetPortMask_full _ (hw.partition_lt P) (hw.partition_nodup P) hlen b hb)).symm

/-- Witness of C24 at the 9-pin grouping whose first 8 pins are the bits of
`Porta` in the order 3, 1, 0, 2, 7, 6, 5, 4, with the value `0x1A5`. -/
theorem Write_full_width_shortcut_witness :
    WellFormed [Pa3, Pa1, Pa0, Pa2, Pa7, Pa6, Pa5, Pa4, Pb0] ∧
    Length (GetPinsWithPort (PinList [Pa3, Pa1, Pa0, Pa2, Pa7, Pa6, Pa5, Pa4, Pb0]) Porta)
      = Port.Width ∧
    (PinSet.Write (PinList [Pa3, Pa1, Pa0, Pa2, Pa7, Pa6, Pa5, Pa4, Pb0]) 421 sampleRegs).data
        Porta
      = (Port.Write Porta
          ((Port.Read Porta sampleRegs &&& complement (GetPortMask
              (GetPinsWithPort (PinList [Pa3, Pa1, Pa0, Pa2, Pa7, Pa6, Pa5, Pa4, Pb0]) Porta)))
            ||| PinWriteIterator.UppendValue
              (GetPinsWithPort (PinList [Pa3, Pa1, Pa0, Pa2, Pa7, Pa6, Pa5, Pa4, Pb0]) Porta)
              ((PinSet.DataType (PinList [Pa3, Pa1, Pa0, Pa2, Pa7, Pa6, Pa5, Pa4, Pb0])).cast
                421)) sampleRegs).data Porta ∧
    (PinSet.Write (PinList [Pa3, Pa1, Pa0, Pa2, Pa7, Pa6, Pa5, Pa4, Pb0]) 421 sampleRegs).data
        Porta ≠ sampleRegs.data Porta :=
  ⟨by decide, by decide,
    (Write_full_width_shortcut [Pa3, Pa1, Pa0, Pa2, Pa7, Pa6, Pa5, Pa4, Pb0] (by decide) Porta
      (by decide) 421 sampleRegs).2.2.2,
    by decide⟩

end Pinlist
